import Mathlib

/-!
Verification development for the `frost` rosbag reader.

The repository ships two Rust files: the CLI binary (`src/bin/frost.rs`) and a
benchmark harness (`benches/construct.rs`).  The library core (record codec,
chunk manager, catalog, `Bag`, `Query`, `BagMetadata`) is not part of the
provided sources, so it is modelled here from the specification; every such
definition carries a doc comment starting with `Modelled from the spec:`.
The CLI functions (`human_bytes`, `print_topics`, `print_all`, `print_size`,
`main`) are shallowly embedded from `src/bin/frost.rs`.
-/

namespace Frost

/-- Modelled from the spec: a monotonic timestamp stored as integer seconds
plus nanoseconds (§3 "Time"); ordering is total (lexicographic). -/
structure Time where
  secs : Nat
  nsecs : Nat
deriving DecidableEq, Repr

/-- Boolean total order on `Time` (lexicographic on seconds then nanoseconds). -/
def Time.leb (a b : Time) : Bool :=
  Nat.blt a.secs b.secs || (a.secs == b.secs && Nat.ble a.nsecs b.nsecs)

theorem Time.leb_iff {a b : Time} :
    Time.leb a b = true ↔ (a.secs < b.secs ∨ (a.secs = b.secs ∧ a.nsecs ≤ b.nsecs)) := by
  simp [Time.leb, Nat.blt_eq, Nat.ble_eq, Bool.or_eq_true, Bool.and_eq_true, beq_iff_eq]

theorem Time.leb_refl (a : Time) : Time.leb a a = true := by
  simp [Time.leb_iff]

theorem Time.leb_trans {a b c : Time} (h₁ : Time.leb a b = true)
    (h₂ : Time.leb b c = true) : Time.leb a c = true := by
  rw [Time.leb_iff] at h₁ h₂ ⊢
  omega

theorem Time.leb_total (a b : Time) : Time.leb a b = true ∨ Time.leb b a = true := by
  rw [Time.leb_iff, Time.leb_iff]
  omega

/-- Modelled from the spec: a connection record's payload — topic (channel
name), message type name, and schema digest (§3 "Connection"). -/
structure Connection where
  topic : String
  data_type : String
  md5sum : String
deriving DecidableEq, Repr

/-- Modelled from the spec: one message record — the id of the connection it
references, its timestamp, and its raw payload bytes (§3, §4.1). -/
structure Message where
  conn_id : Nat
  time : Time
  data : List Nat
deriving DecidableEq, Repr

/-- Modelled from the spec: a chunk, viewed after decompression — the codec
name it was stored with and the message records it contains (§3 "Chunk"). -/
structure Chunk where
  compression : String
  messages : List Message
deriving DecidableEq, Repr

/-- Modelled from the spec: index metadata for one chunk — start/end time of
the messages inside it and per-connection message counts (§3 "ChunkInfo"). -/
structure ChunkInfo where
  start_time : Time
  end_time : Time
  counts : List (Nat × Nat)
deriving DecidableEq, Repr

/-- Modelled from the spec: the decoded content of a recording after catalog
construction — the id→connection catalog, the chunks in file order, and the
chunk-info index entries in the same order (§2 components 3–5, §4.4). -/
structure Recording where
  connections : List (Nat × Connection)
  chunks : List Chunk
  chunk_infos : List ChunkInfo
deriving DecidableEq, Repr

/-- Look a connection up by id in the catalog. -/
def Recording.connFor (r : Recording) (id : Nat) : Option Connection :=
  (r.connections.lookup id)

/-- Modelled from the spec: an immutable filter — optional set of topic names
(absence means all topics) and optional time interval (absence means
unbounded); dimensions combine by logical AND (§4.7). -/
structure Query where
  topics : Option (List String)
  time_range : Option (Time × Time)
deriving DecidableEq, Repr

/-- Modelled from the spec: `Query::all()`, the identity filter (§4.7). -/
def Query.all : Query := ⟨none, none⟩

/-- Modelled from the spec: `Query::by_topic`, restricting to a topic set. -/
def Query.by_topic (ts : List String) : Query := ⟨some ts, none⟩

/-- Topic dimension of a query: absent set matches every topic, a present set
matches exactly its members (§4.7). -/
def Query.matchesTopic (q : Query) (topic : String) : Bool :=
  match q.topics with
  | none => true
  | some ts => ts.contains topic

/-- Time dimension of a query: absent range matches every time, a present
range matches inclusively on both ends (§4.7). -/
def Query.matchesTime (q : Query) (t : Time) : Bool :=
  match q.time_range with
  | none => true
  | some (a, b) => Time.leb a t && Time.leb t b

/-- Modelled from the spec: a non-owning projection of one message — topic
name borrowed from its connection, timestamp, payload bytes (§3). -/
structure MessageView where
  topic : String
  time : Time
  data : List Nat
deriving DecidableEq, Repr

/-- Payload size accessor of a view (the `size()` of §3). -/
def MessageView.size (v : MessageView) : Nat := v.data.length

/-- Turn one message record into a view, provided its connection exists and
the query matches both its topic and its timestamp (§4.5). -/
def viewOf (r : Recording) (q : Query) (m : Message) : Option MessageView :=
  match r.connFor m.conn_id with
  | none => none
  | some c =>
      if q.matchesTopic c.topic && q.matchesTime m.time then
        some ⟨c.topic, m.time, m.data⟩
      else none

/-- The topics of the connections listed in a chunk-info entry, used for
chunk pruning by topic (§4.5). -/
def chunkConnTopics (r : Recording) (info : ChunkInfo) : List String :=
  info.counts.filterMap (fun e => (r.connFor e.1).map Connection.topic)

/-- Modelled from the spec: chunk selection during iteration — a chunk is
visited iff its chunk-info time bounds intersect the query's time range and
its listed connections' topics intersect the query's topic set (§4.5). -/
def chunkSelected (r : Recording) (q : Query) (info : ChunkInfo) : Bool :=
  (match q.time_range with
   | none => true
   | some (a, b) => Time.leb a info.end_time && Time.leb info.start_time b) &&
  (match q.topics with
   | none => true
   | some ts => (chunkConnTopics r info).any (fun t => ts.contains t))

/-- Views yielded by one chunk for a query (messages in stored order). -/
def chunkViews (r : Recording) (q : Query) (c : Chunk) : List MessageView :=
  c.messages.filterMap (viewOf r q)

/-- Yield the views of a list of (chunk, chunk-info) pairs, in file order. -/
def collectViews (r : Recording) (q : Query) : List (Chunk × ChunkInfo) → List MessageView
  | [] => []
  | p :: rest => chunkViews r q p.1 ++ collectViews r q rest

/-- Modelled from the spec: `read_messages(query)` — visit, in file order,
each chunk whose info passes the pruning test, and yield the matching
message views inside it (§4.5). -/
def Recording.read_messages (r : Recording) (q : Query) : List MessageView :=
  collectViews r q
    ((r.chunks.zip r.chunk_infos).filter (fun p => chunkSelected r q p.2))

/-- Total per-connection count of one chunk-info entry. -/
def ChunkInfo.totalCount (i : ChunkInfo) : Nat := (i.counts.map Prod.snd).sum

/-- Modelled from the spec: `message_count()` — the sum of per-connection
counts across all chunks, read from the index entries (§4.8). -/
def Recording.message_count (r : Recording) : Nat :=
  (r.chunk_infos.map ChunkInfo.totalCount).sum

/-- Modelled from the spec: `topics()` — unique topic names, in catalog
order; §4.8 states no ordering for this accessor. -/
def Recording.topics (r : Recording) : List String :=
  (r.connections.map (fun e => e.2.topic)).dedup

/-- Modelled from the spec: `types()` — unique message type names (§4.8). -/
def Recording.types (r : Recording) : List String :=
  (r.connections.map (fun e => e.2.data_type)).dedup

/-- Count, from the index entries, the messages of one chunk whose
connection id satisfies a predicate. -/
def ChunkInfo.countFor (i : ChunkInfo) (p : Nat → Bool) : Nat :=
  ((i.counts.filter (fun e => p e.1)).map Prod.snd).sum

/-- Does connection `id` carry topic `t` in recording `r`? -/
def Recording.idHasTopic (r : Recording) (t : String) (id : Nat) : Bool :=
  match r.connFor id with
  | none => false
  | some c => c.topic == t

/-- Modelled from the spec: `topic_message_counts()` — per-topic sums keyed
by topic, merging all connections that share a topic (§4.8). -/
def Recording.topic_message_counts (r : Recording) : List (String × Nat) :=
  r.topics.map (fun t =>
    (t, (r.chunk_infos.map (fun i => i.countFor (r.idHasTopic t))).sum))

/-- Canonical per-connection counts of a message list: connection ids in
order of occurrence (deduplicated), each paired with the number of messages
carrying it.  This is the shape a correct writer stores in a chunk-info
record (§3 "ChunkInfo"). -/
def countsOfMsgs (msgs : List Message) : List (Nat × Nat) :=
  (msgs.map Message.conn_id).dedup.map
    (fun id => (id, (msgs.filter (fun m => m.conn_id == id)).length))

/-- Modelled from the spec: validity of a recording — the invariants §3
lists for writer-produced files: index entries agree with chunk contents,
every message's connection exists, messages within a chunk are stored in
timestamp order, chunk-info time bounds contain their messages and
successive chunks do not overlap backwards in time. -/
structure ValidRecording (r : Recording) : Prop where
  len_eq : r.chunks.length = r.chunk_infos.length
  conn_keys_nodup : (r.connections.map Prod.fst).Nodup
  conn_exists : ∀ c ∈ r.chunks, ∀ m ∈ c.messages, (r.connFor m.conn_id).isSome = true
  counts_exact : ∀ p ∈ r.chunks.zip r.chunk_infos, p.2.counts = countsOfMsgs p.1.messages
  msgs_sorted : ∀ c ∈ r.chunks,
    List.Pairwise (fun a b => Time.leb a b = true) (c.messages.map Message.time)
  msgs_in_bounds : ∀ p ∈ r.chunks.zip r.chunk_infos, ∀ m ∈ p.1.messages,
    Time.leb p.2.start_time m.time = true ∧ Time.leb m.time p.2.end_time = true
  infos_ordered : List.Pairwise
    (fun a b => Time.leb a.end_time b.start_time = true) r.chunk_infos

section CountingLemmas

/-- Summing an equality indicator over a duplicate-free list counts whether
the element occurs. -/
theorem sum_indicator (L : List Nat) (a : Nat) (h : L.Nodup) :
    ((L.map (fun id => if a = id then (1 : Nat) else 0)).sum)
      = if a ∈ L then 1 else 0 := by
  induction L with
  | nil => simp
  | cons x xs ih =>
      rw [List.nodup_cons] at h
      by_cases hax : a = x
      · subst hax
        have : (xs.map (fun id => if a = id then (1 : Nat) else 0)).sum = 0 := by
          apply List.sum_eq_zero
          intro y hy
          rcases List.mem_map.mp hy with ⟨id, hid, hval⟩
          have : ¬ a = id := fun hc => h.1 (hc ▸ hid)
          simp [this] at hval
          omega
        simp [this]
      · simp [hax, ih h.2]

/-- Core counting identity: if `keys` lists each connection id at most once,
every message's id is among `keys`, then summing per-id message counts over
the ids of `keys` satisfying `p` counts exactly the messages whose id
satisfies `p`. -/
theorem sum_counts_filter (msgs : List Message) (keys : List Nat) (p : Nat → Bool)
    (hnd : keys.Nodup) (hmem : ∀ m ∈ msgs, m.conn_id ∈ keys) :
    (((keys.filter p).map
        (fun id => (msgs.filter (fun m => m.conn_id == id)).length)).sum)
      = (msgs.filter (fun m => p m.conn_id)).length := by
  induction msgs with
  | nil => simp
  | cons m ms ih =>
      have hmem' : ∀ x ∈ ms, x.conn_id ∈ keys := fun x hx => hmem x (List.mem_cons_of_mem _ hx)
      have step : ∀ id : Nat,
          ((m :: ms).filter (fun x => x.conn_id == id)).length
            = (if m.conn_id = id then 1 else 0)
              + (ms.filter (fun x => x.conn_id == id)).length := by
        intro id
        by_cases hid : m.conn_id = id
        · simp [List.filter_cons, hid]
          omega
        · simp [List.filter_cons, hid]
      have hsplit :
          (((keys.filter p).map
              (fun id => ((m :: ms).filter (fun x => x.conn_id == id)).length)).sum)
            = (((keys.filter p).map
                (fun id => if m.conn_id = id then (1 : Nat) else 0)).sum)
              + (((keys.filter p).map
                  (fun id => (ms.filter (fun x => x.conn_id == id)).length)).sum) := by
        rw [← List.sum_map_add]
        exact congrArg List.sum (List.map_congr_left (fun id _ => step id))
      rw [hsplit, ih hmem']
      have hind := sum_indicator (keys.filter p) m.conn_id (hnd.filter p)
      have hmm : m.conn_id ∈ keys := hmem m (List.mem_cons_self _ _)
      by_cases hpm : p m.conn_id = true
      · have : m.conn_id ∈ keys.filter p := List.mem_filter.mpr ⟨hmm, hpm⟩
        rw [hind]
        simp [List.filter_cons, hpm, this]
        omega
      · have : m.conn_id ∉ keys.filter p := by
          intro hc
          exact hpm (List.mem_filter.mp hc).2
        rw [hind]
        simp [List.filter_cons, hpm, this]

/-- The keys of the canonical counts are exactly the ids occurring in the
message list, without duplicates, and each value is the exact count. -/
theorem countsOfMsgs_keys (msgs : List Message) :
    (countsOfMsgs msgs).map Prod.fst = (msgs.map Message.conn_id).dedup := by
  rw [countsOfMsgs, List.map_map]
  exact List.map_id _

theorem countsOfMsgs_keys_nodup (msgs : List Message) :
    ((countsOfMsgs msgs).map Prod.fst).Nodup := by
  rw [countsOfMsgs_keys]
  exact List.nodup_dedup _

theorem countsOfMsgs_total (msgs : List Message) :
    ((countsOfMsgs msgs).map Prod.snd).sum = msgs.length := by
  have h := sum_counts_filter msgs (msgs.map Message.conn_id).dedup (fun _ => true)
    (List.nodup_dedup _)
    (fun m hm => List.mem_dedup.mpr (List.mem_map_of_mem _ hm))
  simp at h
  rw [countsOfMsgs, List.map_map]
  simpa [Function.comp] using h

/-- The canonical counts restricted to a predicate on ids sum to the number
of messages whose id satisfies it. -/
theorem countsOfMsgs_countFor (msgs : List Message) (p : Nat → Bool) :
    (((countsOfMsgs msgs).filter (fun e => p e.1)).map Prod.snd).sum
      = (msgs.filter (fun m => p m.conn_id)).length := by
  have h := sum_counts_filter msgs (msgs.map Message.conn_id).dedup p
    (List.nodup_dedup _)
    (fun m hm => List.mem_dedup.mpr (List.mem_map_of_mem _ hm))
  rw [countsOfMsgs, List.filter_map, List.map_map]
  simpa [Function.comp] using h

end CountingLemmas

section IterationLemmas

theorem viewOf_time {r : Recording} {q : Query} {m : Message} {v : MessageView}
    (h : viewOf r q m = some v) : v.time = m.time := by
  unfold viewOf at h
  cases hc : r.connFor m.conn_id <;> rw [hc] at h <;> dsimp only at h
  · exact absurd h (by simp)
  · split at h
    · cases h; rfl
    · exact absurd h (by simp)

theorem mem_chunkViews {r : Recording} {q : Query} {c : Chunk} {v : MessageView}
    (h : v ∈ chunkViews r q c) : ∃ m ∈ c.messages, v.time = m.time := by
  rcases List.mem_filterMap.mp h with ⟨m, hm, hv⟩
  exact ⟨m, hm, viewOf_time hv⟩

theorem chunkViews_times_sublist (r : Recording) (q : Query) (c : Chunk) :
    ((chunkViews r q c).map MessageView.time).Sublist
      (c.messages.map Message.time) := by
  unfold chunkViews
  induction c.messages with
  | nil => simp
  | cons m ms ih =>
      rw [List.filterMap_cons]
      cases hv : viewOf r q m with
      | none => simpa using ih.cons _
      | some v =>
          rw [List.map_cons, List.map_cons, viewOf_time hv]
          exact ih.cons₂ _

theorem length_filterMap_of_isSome {α β : Type} (f : α → Option β) (l : List α)
    (h : ∀ a ∈ l, (f a).isSome = true) : (l.filterMap f).length = l.length := by
  induction l with
  | nil => rfl
  | cons a as ih =>
      rw [List.filterMap_cons]
      cases hv : f a with
      | none =>
          have := h a (List.mem_cons_self _ _)
          rw [hv] at this
          exact absurd this (by simp)
      | some b =>
          simp only [List.length_cons]
          rw [ih (fun x hx => h x (List.mem_cons_of_mem _ hx))]

theorem collectViews_length (r : Recording) (q : Query)
    (pairs : List (Chunk × ChunkInfo)) :
    (collectViews r q pairs).length
      = (pairs.map (fun p => (chunkViews r q p.1).length)).sum := by
  induction pairs with
  | nil => rfl
  | cons p rest ih => simp [collectViews, ih]

/-- Ordering of the concatenated views: if every chunk's messages are sorted
and lie inside its info's bounds, and the infos do not overlap backwards,
the collected views are globally sorted; moreover every collected view's
time is above the start bound of some visited chunk. -/
theorem collectViews_sorted (r : Recording) (q : Query)
    (pairs : List (Chunk × ChunkInfo))
    (hs : ∀ p ∈ pairs,
      List.Pairwise (fun a b => Time.leb a b = true) (p.1.messages.map Message.time))
    (hb : ∀ p ∈ pairs, ∀ m ∈ p.1.messages,
      Time.leb p.2.start_time m.time = true ∧ Time.leb m.time p.2.end_time = true)
    (ho : List.Pairwise
      (fun p pq => Time.leb p.2.end_time pq.2.start_time = true) pairs) :
    List.Pairwise (fun a b => Time.leb a b = true)
        ((collectViews r q pairs).map MessageView.time) ∧
      ∀ v ∈ collectViews r q pairs, ∃ p ∈ pairs,
        Time.leb p.2.start_time v.time = true := by
  induction pairs with
  | nil => exact ⟨List.Pairwise.nil, by simp [collectViews]⟩
  | cons p rest ih =>
      have hs' : ∀ x ∈ rest, _ := fun x hx => hs x (List.mem_cons_of_mem _ hx)
      have hb' : ∀ x ∈ rest, ∀ m ∈ x.1.messages, _ :=
        fun x hx => hb x (List.mem_cons_of_mem _ hx)
      have ho' := (List.pairwise_cons.mp ho).2
      have hrel := (List.pairwise_cons.mp ho).1
      obtain ⟨ihp, ihb⟩ := ih hs' hb' ho'
      have hinner : List.Pairwise (fun a b => Time.leb a b = true)
          ((chunkViews r q p.1).map MessageView.time) :=
        (hs p (List.mem_cons_self _ _)).sublist (chunkViews_times_sublist r q p.1)
      constructor
      · rw [collectViews, List.map_append]
        rw [List.pairwise_append]
        refine ⟨hinner, ihp, ?_⟩
        intro x hx y hy
        rcases List.mem_map.mp hx with ⟨v, hv, hvx⟩
        rcases List.mem_map.mp hy with ⟨w, hw, hwy⟩
        rcases mem_chunkViews hv with ⟨m, hm, hvm⟩
        have hx_end : Time.leb x p.2.end_time = true := by
          rw [← hvx, hvm]
          exact (hb p (List.mem_cons_self _ _) m hm).2
        rcases ihb w hw with ⟨pq, hpq, hwstart⟩
        have hmid : Time.leb p.2.end_time pq.2.start_time = true := hrel pq hpq
        have hy_start : Time.leb pq.2.start_time y = true := by
          rw [← hwy]; exact hwstart
        exact Time.leb_trans (Time.leb_trans hx_end hmid) hy_start
      · intro v hv
        rw [collectViews] at hv
        rcases List.mem_append.mp hv with hvl | hvr
        · rcases mem_chunkViews hvl with ⟨m, hm, hvm⟩
          refine ⟨p, List.mem_cons_self _ _, ?_⟩
          rw [hvm]
          exact (hb p (List.mem_cons_self _ _) m hm).1
        · rcases ihb v hvr with ⟨pq, hpq, hst⟩
          exact ⟨pq, List.mem_cons_of_mem _ hpq, hst⟩

end IterationLemmas

section ClaimOne

theorem chunkSelected_all (r : Recording) (i : ChunkInfo) :
    chunkSelected r Query.all i = true := rfl

theorem viewOf_all_isSome {r : Recording} {m : Message}
    (hc : (r.connFor m.conn_id).isSome = true) :
    (viewOf r Query.all m).isSome = true := by
  unfold viewOf
  cases hcc : r.connFor m.conn_id with
  | none => rw [hcc] at hc; exact absurd hc (by simp)
  | some c => simp [Query.matchesTopic, Query.matchesTime, Query.all]

theorem zip_pairs_snd (r : Recording) (h : r.chunks.length = r.chunk_infos.length) :
    (r.chunks.zip r.chunk_infos).map Prod.snd = r.chunk_infos :=
  List.map_snd_zip _ _ (le_of_eq h.symm)

/-- C1: for every valid recording, `read_messages(Query::all())` yields
exactly `message_count()` elements, and the yielded timestamps are
non-decreasing. -/
theorem read_messages_all_count_sorted (r : Recording) (h : ValidRecording r) :
    (r.read_messages Query.all).length = r.message_count ∧
    List.Pairwise (fun a b => Time.leb a b = true)
      ((r.read_messages Query.all).map MessageView.time) := by
  have hfilter : (r.chunks.zip r.chunk_infos).filter
      (fun p => chunkSelected r Query.all p.2) = r.chunks.zip r.chunk_infos :=
    List.filter_eq_self.mpr (fun p _ => chunkSelected_all r p.2)
  have hread : r.read_messages Query.all
      = collectViews r Query.all (r.chunks.zip r.chunk_infos) := by
    rw [Recording.read_messages, hfilter]
  constructor
  · rw [hread, collectViews_length, Recording.message_count]
    have hstep : ∀ p ∈ r.chunks.zip r.chunk_infos,
        (chunkViews r Query.all p.1).length = p.2.totalCount := by
      intro p hp
      have hcm : p.1 ∈ r.chunks := (List.of_mem_zip hp).1
      have hlen : (chunkViews r Query.all p.1).length = p.1.messages.length :=
        length_filterMap_of_isSome _ _
          (fun m hm => viewOf_all_isSome (h.conn_exists p.1 hcm m hm))
      rw [hlen, ChunkInfo.totalCount, h.counts_exact p hp, countsOfMsgs_total]
    rw [List.map_congr_left hstep]
    have : (r.chunks.zip r.chunk_infos).map (fun p => p.2.totalCount)
        = r.chunk_infos.map ChunkInfo.totalCount := by
      have := congrArg (List.map ChunkInfo.totalCount) (zip_pairs_snd r h.len_eq)
      rw [List.map_map] at this
      exact this
    rw [this]
  · rw [hread]
    have ho : List.Pairwise
        (fun p pq => Time.leb p.2.end_time pq.2.start_time = true)
        (r.chunks.zip r.chunk_infos) := by
      have hsnd := zip_pairs_snd r h.len_eq
      have : List.Pairwise
          (fun a b => Time.leb a.end_time b.start_time = true)
          ((r.chunks.zip r.chunk_infos).map Prod.snd) := by
        rw [hsnd]; exact h.infos_ordered
      exact (List.pairwise_map.mp this)
    exact (collectViews_sorted r Query.all (r.chunks.zip r.chunk_infos)
      (fun p hp => h.msgs_sorted p.1 (List.of_mem_zip hp).1)
      (fun p hp => h.msgs_in_bounds p hp) ho).1

/-- A concrete valid recording used by witnesses: two connections on two
topics, two chunks, two messages each, with a consistent index. -/
def sampleRec : Recording :=
  { connections := [(0, ⟨"/cam", "sensor_msgs/Image", "aaa"⟩),
                    (1, ⟨"/imu", "sensor_msgs/Imu", "bbb"⟩)]
    chunks :=
      [⟨"none", [⟨0, ⟨1, 0⟩, [1, 2]⟩, ⟨1, ⟨1, 500⟩, [3]⟩]⟩,
       ⟨"none", [⟨1, ⟨2, 0⟩, [4]⟩, ⟨0, ⟨3, 0⟩, [5, 6]⟩]⟩]
    chunk_infos :=
      [⟨⟨1, 0⟩, ⟨1, 500⟩, [(0, 1), (1, 1)]⟩,
       ⟨⟨2, 0⟩, ⟨3, 0⟩, [(1, 1), (0, 1)]⟩] }

theorem sampleRec_valid : ValidRecording sampleRec :=
  ⟨by decide, by decide, by decide, by decide, by decide, by decide, by decide⟩

theorem read_messages_all_count_sorted_witness :
    (sampleRec.read_messages Query.all).length = sampleRec.message_count ∧
    List.Pairwise (fun a b => Time.leb a b = true)
      ((sampleRec.read_messages Query.all).map MessageView.time) :=
  read_messages_all_count_sorted sampleRec sampleRec_valid

end ClaimOne

section ClaimThree

theorem length_filterMap_eq_length_filter {α β : Type} (f : α → Option β)
    (l : List α) :
    (l.filterMap f).length = (l.filter (fun a => (f a).isSome)).length := by
  induction l with
  | nil => rfl
  | cons a as ih =>
      rw [List.filterMap_cons, List.filter_cons]
      cases hv : f a with
      | none => simpa [hv] using ih
      | some b => simpa [hv] using ih

theorem viewOf_by_topic_isSome (r : Recording) (t : String) (m : Message) :
    (viewOf r (Query.by_topic [t]) m).isSome = r.idHasTopic t m.conn_id := by
  unfold viewOf Recording.idHasTopic
  cases hc : r.connFor m.conn_id with
  | none => rfl
  | some c =>
      by_cases ht : c.topic = t
      · simp [Query.by_topic, Query.matchesTopic, Query.matchesTime, ht]
      · simp [Query.by_topic, Query.matchesTopic, Query.matchesTime, ht]

/-- If a chunk is pruned by a single-topic query, its index entry records no
message on that topic. -/
theorem pruned_countFor_zero (r : Recording) (t : String) (i : ChunkInfo)
    (h : chunkSelected r (Query.by_topic [t]) i = false) :
    i.countFor (r.idHasTopic t) = 0 := by
  unfold chunkSelected at h
  simp only [Query.by_topic, Bool.true_and] at h
  have hall : ∀ s ∈ chunkConnTopics r i, ([t].contains s) = false := by
    intro s hs
    by_contra hcon
    have : (chunkConnTopics r i).any (fun s => [t].contains s) = true :=
      List.any_eq_true.mpr ⟨s, hs, by revert hcon; cases ([t].contains s) <;> simp⟩
    rw [this] at h
    exact absurd h (by simp)
  have hempty : i.counts.filter (fun e => r.idHasTopic t e.1) = [] := by
    apply List.filter_eq_nil.mpr
    intro e he
    cases hc : r.connFor e.1 with
    | none => simp [Recording.idHasTopic, hc]
    | some c =>
        have hmem : c.topic ∈ chunkConnTopics r i :=
          List.mem_filterMap.mpr ⟨e, he, by rw [hc]; rfl⟩
        have := hall c.topic hmem
        simp only [List.contains_cons, List.contains_nil, Bool.or_false] at this
        simp [Recording.idHasTopic, hc]
        intro hct
        rw [hct] at this
        simpa using this
  rw [ChunkInfo.countFor, hempty]
  rfl

theorem sum_filter_of_vanish {α : Type} (l : List α) (sel : α → Bool)
    (g : α → Nat) (h0 : ∀ a ∈ l, sel a = false → g a = 0) :
    ((l.filter sel).map g).sum = (l.map g).sum := by
  induction l with
  | nil => rfl
  | cons a as ih =>
      have ih' := ih (fun x hx => h0 x (List.mem_cons_of_mem _ hx))
      rw [List.filter_cons]
      cases hsel : sel a with
      | true => simpa using ih'
      | false =>
          have := h0 a (List.mem_cons_self _ _) hsel
          simp [this, ih']

theorem lookup_map_self {α β : Type} [BEq α] [LawfulBEq α]
    (L : List α) (f : α → β) (t : α) (ht : t ∈ L) :
    ((L.map (fun x => (x, f x))).lookup t) = some (f t) := by
  induction L with
  | nil => exact absurd ht (by simp)
  | cons x xs ih =>
      rw [List.map_cons, List.lookup_cons]
      by_cases hx : t = x
      · subst hx
        simp
      · have : (t == x) = false := by
          revert hx
          cases htx : (t == x) <;> simp_all
        rw [this]
        rcases List.mem_cons.mp ht with h | h
        · exact absurd h hx
        · exact ih h

/-- C3: for every valid recording and every topic `t`, a `by_topic({t})`
query yields exactly `topic_message_counts()[t]` messages; the per-topic
counts merge all connections sharing the topic. -/
theorem read_messages_by_topic_count (r : Recording) (h : ValidRecording r)
    (t : String) (ht : t ∈ r.topics) :
    r.topic_message_counts.lookup t
      = some ((r.read_messages (Query.by_topic [t])).length) := by
  rw [Recording.topic_message_counts, lookup_map_self _ _ _ ht]
  congr 1
  -- reduce the yielded length to a sum of per-chunk index counts
  rw [Recording.read_messages, collectViews_length]
  have hA : ∀ p ∈ (r.chunks.zip r.chunk_infos).filter
      (fun p => chunkSelected r (Query.by_topic [t]) p.2),
      (chunkViews r (Query.by_topic [t]) p.1).length
        = p.2.countFor (r.idHasTopic t) := by
    intro p hp
    have hp' : p ∈ r.chunks.zip r.chunk_infos := (List.mem_filter.mp hp).1
    rw [chunkViews, length_filterMap_eq_length_filter]
    have : (fun m => (viewOf r (Query.by_topic [t]) m).isSome)
        = (fun m => r.idHasTopic t m.conn_id) := by
      funext m
      exact viewOf_by_topic_isSome r t m
    rw [this, ChunkInfo.countFor, h.counts_exact p hp', countsOfMsgs_countFor]
  rw [List.map_congr_left hA]
  rw [sum_filter_of_vanish _ _ _
    (fun p _ hsel => pruned_countFor_zero r t p.2 hsel)]
  have hsnd : (r.chunks.zip r.chunk_infos).map
      (fun p => p.2.countFor (r.idHasTopic t))
      = r.chunk_infos.map (fun i => i.countFor (r.idHasTopic t)) := by
    have := congrArg (List.map (fun i => ChunkInfo.countFor i (r.idHasTopic t)))
      (zip_pairs_snd r h.len_eq)
    rw [List.map_map] at this
    exact this
  rw [hsnd]

theorem read_messages_by_topic_count_witness :
    "/imu" ∈ sampleRec.topics ∧
    sampleRec.topic_message_counts.lookup "/imu"
      = some ((sampleRec.read_messages (Query.by_topic ["/imu"])).length) :=
  ⟨by decide,
   read_messages_by_topic_count sampleRec sampleRec_valid "/imu" (by decide)⟩

end ClaimThree

section ClaimFour

/-- C4: `Query::all()` matches every message; a topic-restricted query
matches a message iff the message's connection's topic belongs to the
supplied set; the empty topic set matches nothing while an absent topic set
matches everything, and the two cases are not collapsed.  "Matches" is
observed through `viewOf`: a message is yielded iff a view is produced. -/
theorem query_matching_semantics (r : Recording) (m : Message) (c : Connection)
    (h : r.connFor m.conn_id = some c) :
    (viewOf r Query.all m).isSome = true ∧
    (∀ ts : List String,
      (viewOf r (Query.by_topic ts) m).isSome = ts.contains c.topic) ∧
    (viewOf r (Query.by_topic []) m).isSome = false ∧
    (viewOf r (Query.by_topic []) m).isSome ≠ (viewOf r Query.all m).isSome := by
  have hts : ∀ ts : List String,
      (viewOf r (Query.by_topic ts) m).isSome = ts.contains c.topic := by
    intro ts
    unfold viewOf
    rw [h]
    simp only [Query.by_topic, Query.matchesTopic, Query.matchesTime,
      Bool.and_true]
    cases ts.contains c.topic <;> simp
  have hall : (viewOf r Query.all m).isSome = true := by
    unfold viewOf
    rw [h]
    simp [Query.all, Query.matchesTopic, Query.matchesTime]
  refine ⟨hall, hts, ?_, ?_⟩
  · rw [hts []]
    rfl
  · rw [hts [], hall]
    simp

theorem query_matching_semantics_witness :
    sampleRec.connFor 0 = some ⟨"/cam", "sensor_msgs/Image", "aaa"⟩ ∧
    (viewOf sampleRec Query.all ⟨0, ⟨1, 0⟩, [1, 2]⟩).isSome = true ∧
    (∀ ts : List String,
      (viewOf sampleRec (Query.by_topic ts) ⟨0, ⟨1, 0⟩, [1, 2]⟩).isSome
        = ts.contains "/cam") ∧
    (viewOf sampleRec (Query.by_topic []) ⟨0, ⟨1, 0⟩, [1, 2]⟩).isSome = false ∧
    (viewOf sampleRec (Query.by_topic []) ⟨0, ⟨1, 0⟩, [1, 2]⟩).isSome
      ≠ (viewOf sampleRec Query.all ⟨0, ⟨1, 0⟩, [1, 2]⟩).isSome :=
  ⟨by decide,
   query_matching_semantics sampleRec ⟨0, ⟨1, 0⟩, [1, 2]⟩
     ⟨"/cam", "sensor_msgs/Image", "aaa"⟩ (by decide)⟩

end ClaimFour

section TimeAccessors

/-- Least element of a time list, if any. -/
def minTimeList : List Time → Option Time
  | [] => none
  | t :: rest =>
      match minTimeList rest with
      | none => some t
      | some u => some (if Time.leb t u then t else u)

/-- Greatest element of a time list, if any. -/
def maxTimeList : List Time → Option Time
  | [] => none
  | t :: rest =>
      match maxTimeList rest with
      | none => some t
      | some u => some (if Time.leb t u then u else t)

/-- Modelled from the spec: `start_time()` — global minimum over all
chunk-info bounds, absent when the recording has zero chunks (§4.8). -/
def Recording.start_time (r : Recording) : Option Time :=
  minTimeList (r.chunk_infos.map ChunkInfo.start_time)

/-- Modelled from the spec: `end_time()` — global maximum over all
chunk-info bounds, absent when the recording has zero chunks (§4.8). -/
def Recording.end_time (r : Recording) : Option Time :=
  maxTimeList (r.chunk_infos.map ChunkInfo.end_time)

theorem minTimeList_eq_none_iff (l : List Time) : minTimeList l = none ↔ l = [] := by
  cases l with
  | nil => simp [minTimeList]
  | cons t rest =>
      simp only [minTimeList]
      cases minTimeList rest <;> simp

theorem maxTimeList_eq_none_iff (l : List Time) : maxTimeList l = none ↔ l = [] := by
  cases l with
  | nil => simp [maxTimeList]
  | cons t rest =>
      simp only [maxTimeList]
      cases maxTimeList rest <;> simp

theorem end_time_none_imp_start_time_none (r : Recording)
    (h : r.end_time = none) : r.start_time = none := by
  rw [Recording.end_time, maxTimeList_eq_none_iff, List.map_eq_nil] at h
  rw [Recording.start_time, minTimeList_eq_none_iff, List.map_eq_nil]
  exact h

end TimeAccessors

section CliEmbedding

/-- The library's error kinds (§7); the library itself is not among the
sources, so the kinds are modelled from the spec. -/
inductive Error
  | ioFault
  | invalidFormat
  | malformedRecord
  | unsupportedCompression (name : String)
  | decompressFailed
deriving DecidableEq, Repr

/-- The slice of `BagMetadata` the CLI reads (fields used by
`src/bin/frost.rs`): the decoded recording plus version, byte size and
optional file path. -/
structure CliMetadata where
  bag : Recording
  version : String
  num_bytes : Nat
  file_path : Option String
deriving DecidableEq, Repr

/-- Observable result of running a CLI code path: normal output lines, an
error value returned through `main`'s `Result`, or a process abort via
`panic`/`expect`/`unwrap`. -/
inductive CliOutcome (α : Type)
  | ok (val : α)
  | err (e : Error)
  | panicked (msg : String)
deriving DecidableEq, Repr

/-- Embedded from `src/bin/frost.rs` (the `Opts` enum). -/
inductive Opts
  | topicOptions (file_path : String)
  | typeOptions (file_path : String)
  | sizeOptions (use_types : Bool) (file_path : String)
  | infoOptions (minimal : Bool) (file_path : String)
deriving DecidableEq, Repr

/-- Results of the library calls the CLI makes; the library is external to
the provided sources, so the CLI is embedded against these call results. -/
structure CliEnv where
  metadataResult : Except Error CliMetadata
  dbagResult : Except Error Recording
  readResult : Except Error (List MessageView)

/-- Embedded from `src/bin/frost.rs` lines 91–110 (`human_bytes`): the unit
table. -/
def humanUnits : List String := ["bytes", "KB", "MB", "GB"]

/-- Embedded from `src/bin/frost.rs` lines 97–103: the `for u in units`
loop.  Each iteration first sets `unit = u`, breaks if `remainder < 1024.0`,
otherwise divides `remainder` by 1024 and continues; falling off the end of
the list keeps the last unit and the divided remainder.  The `f64`
`remainder` is modelled exactly over `ℚ`: all divisions are by the power of
two 1024 and all comparisons are against 1024, which `f64` performs exactly
at these magnitudes. -/
def humanLoop : List String → String → ℚ → String × ℚ
  | [], unit, rem => (unit, rem)
  | u :: rest, _, rem =>
      if rem < 1024 then (u, rem) else humanLoop rest u (rem / 1024)

/-- Round to the nearest integer, ties to even. -/
def roundHalfEven (x : ℚ) : ℤ :=
  if x - ⌊x⌋ > 1 / 2 then ⌊x⌋ + 1
  else if x - ⌊x⌋ < 1 / 2 then ⌊x⌋
  else if ⌊x⌋ % 2 = 0 then ⌊x⌋ else ⌊x⌋ + 1

/-- Two-digit zero-padded decimal rendering of a value below 100. -/
def pad2 (k : Nat) : String :=
  if k < 10 then "0" ++ toString k else toString k

/-- Fixed-point rendering of a non-negative rational with two decimals,
rounding to nearest with ties to even — the model of Rust's `{:.2}`
float formatting. -/
def fmt2 (q : ℚ) : String :=
  toString ((roundHalfEven (q * 100)).toNat / 100) ++ "." ++
    pad2 ((roundHalfEven (q * 100)).toNat % 100)

/-- Embedded from `src/bin/frost.rs` lines 91–110 (`human_bytes`). -/
def human_bytes (bytes : Nat) : String :=
  if (humanLoop humanUnits "bytes" (bytes : ℚ)).1 = "bytes" then
    toString bytes ++ " bytes"
  else
    fmt2 (humanLoop humanUnits "bytes" (bytes : ℚ)).2 ++ " "
      ++ (humanLoop humanUnits "bytes" (bytes : ℚ)).1
      ++ " (" ++ toString bytes ++ " bytes)"

/-- Embedded from `src/bin/frost.rs` lines 77–82 (`print_topics`): the
topics are sorted (`itertools::sorted`, modelled as insertion sort over the
lexicographic string order) and printed one per line. -/
def print_topics (md : CliMetadata) : List String :=
  (List.insertionSort (fun a b : String => a ≤ b) md.bag.topics).map
    (fun t => t ++ "\n")

/-- Embedded from `src/bin/frost.rs` lines 84–89 (`print_types`). -/
def print_types (md : CliMetadata) : List String :=
  (List.insertionSort (fun a b : String => a ≤ b) md.bag.types).map
    (fun t => t ++ "\n")

/-- Embedded from `src/bin/frost.rs` lines 112–230 (`print_all`): the two
leading `.expect(...)` calls on `start_time()`/`end_time()` abort via panic
when the accessor is absent; otherwise a report is produced.  The report
lines are abbreviated (datetime and percentage formatting of the full
report are outside the claims), the control flow is exact. -/
def print_all (md : CliMetadata) (minimal : Bool) : CliOutcome (List String) :=
  match md.bag.start_time with
  | none => .panicked "Bag does not have a start time"
  | some _ =>
      match md.bag.end_time with
      | none => .panicked "Bag does not have a end time"
      | some _ =>
          .ok (["path:", "version:      " ++ md.version,
                "size:         " ++ human_bytes md.num_bytes,
                "messages:     " ++ toString md.bag.message_count]
               ++ (if minimal then [] else ["types:", "topics:"]))

/-- Embedded from `src/bin/frost.rs` lines 232–292 (`print_size`): the
results of `DecompressedBag::from_file` and `read_messages` are consumed
with `.unwrap()`, so an error value aborts via panic instead of being
returned; on success a size report is produced. -/
def print_size (md : CliMetadata) (env : CliEnv) (useTypes : Bool) :
    CliOutcome (List String) :=
  match env.dbagResult with
  | .error _ => .panicked "called Result::unwrap() on an Err value"
  | .ok _ =>
      match env.readResult with
      | .error _ => .panicked "called Result::unwrap() on an Err value"
      | .ok msgs =>
          .ok (["path:", "size:         " ++ human_bytes md.num_bytes]
               ++ [toString (msgs.map MessageView.size).sum])

/-- Embedded from `src/bin/frost.rs` lines 294–322 (`main`): each subcommand
first opens the metadata with `BagMetadata::from_file(...)?`, whose error
propagates to `main`'s `Result`; the subcommand body then runs. -/
def cliMain (o : Opts) (env : CliEnv) : CliOutcome (List String) :=
  match o with
  | .topicOptions _ =>
      match env.metadataResult with
      | .error e => .err e
      | .ok md => .ok (print_topics md)
  | .typeOptions _ =>
      match env.metadataResult with
      | .error e => .err e
      | .ok md => .ok (print_types md)
  | .infoOptions minimal _ =>
      match env.metadataResult with
      | .error e => .err e
      | .ok md => print_all md minimal
  | .sizeOptions useTypes _ =>
      match env.metadataResult with
      | .error e => .err e
      | .ok md => print_size md env useTypes

end CliEmbedding

section ClaimSeven

/-- A valid recording whose catalog lists the `/imu` connection before the
`/cam` one, so the derived topic list is not alphabetically sorted. -/
def sampleRecUnsorted : Recording :=
  { connections := [(1, ⟨"/imu", "sensor_msgs/Imu", "bbb"⟩),
                    (0, ⟨"/cam", "sensor_msgs/Image", "aaa"⟩)]
    chunks :=
      [⟨"none", [⟨0, ⟨1, 0⟩, [1, 2]⟩, ⟨1, ⟨1, 500⟩, [3]⟩]⟩]
    chunk_infos :=
      [⟨⟨1, 0⟩, ⟨1, 500⟩, [(0, 1), (1, 1)]⟩] }

/-- C7 counterexample: a valid recording on which `topics()` is not sorted
(the CLI sorts the names itself before printing, `frost.rs` line 78). -/
theorem topics_unsorted_counterexample :
    ValidRecording sampleRecUnsorted ∧
    ¬ List.Sorted (fun a b : String => a ≤ b) sampleRecUnsorted.topics :=
  ⟨⟨by decide, by decide, by decide, by decide, by decide, by decide,
    by decide⟩,
   by
    intro hs
    have h1 : sampleRecUnsorted.topics = ["/imu", "/cam"] := by decide
    rw [h1] at hs
    have h2 := (List.sorted_cons.mp hs).1 "/cam" (by simp)
    rw [String.le_iff_toList_le] at h2
    exact absurd h2 (by decide)⟩

/-- C7 amended: `topics()` returns the unique topic names with no ordering
guarantee; the CLI's `topics` subcommand sorts them before printing, so the
printed list is sorted and is a permutation of `topics()`. -/
theorem print_topics_sorted (md : CliMetadata) :
    List.Sorted (fun a b : String => a ≤ b)
        (List.insertionSort (fun a b : String => a ≤ b) md.bag.topics) ∧
    (List.insertionSort (fun a b : String => a ≤ b) md.bag.topics).Perm
        md.bag.topics ∧
    print_topics md
      = (List.insertionSort (fun a b : String => a ≤ b) md.bag.topics).map
          (fun t => t ++ "\n") :=
  ⟨List.sorted_insertionSort _ _, List.perm_insertionSort _ _, rfl⟩

end ClaimSeven

section ClaimEight

/-- C8 counterexample: metadata opens fine, but `DecompressedBag::from_file`
inside `print_size` fails; the CLI panics through `.unwrap()` instead of
returning the error value through `main`'s `Result`. -/
def envDbagFails : CliEnv :=
  ⟨.ok ⟨sampleRec, "2.0", 4242, some "a.bag"⟩, .error .decompressFailed,
   .ok []⟩

theorem cli_unwrap_counterexample :
    envDbagFails.dbagResult = .error .decompressFailed ∧
    cliMain (.sizeOptions false "a.bag") envDbagFails
        ≠ .err .decompressFailed ∧
    cliMain (.sizeOptions false "a.bag") envDbagFails
        = .panicked "called Result::unwrap() on an Err value" :=
  ⟨rfl, by decide, rfl⟩

/-- C8 amended: `BagMetadata::from_file` errors propagate to `main`'s
`Result` in every subcommand; but a failing `DecompressedBag::from_file` or
`read_messages` in the size path aborts via panic, as does an absent
start time in the info path — those error values never reach `main`'s
`Result`, though no error path continues silently. -/
theorem cli_error_paths :
    (∀ (o : Opts) (env : CliEnv) (e : Error),
      env.metadataResult = .error e → cliMain o env = .err e) ∧
    (∀ (env : CliEnv) (u : Bool) (fp : String) (md : CliMetadata) (e : Error),
      env.metadataResult = .ok md → env.dbagResult = .error e →
        cliMain (.sizeOptions u fp) env
          = .panicked "called Result::unwrap() on an Err value") ∧
    (∀ (env : CliEnv) (u : Bool) (fp : String) (md : CliMetadata)
        (b : Recording) (e : Error),
      env.metadataResult = .ok md → env.dbagResult = .ok b →
      env.readResult = .error e →
        cliMain (.sizeOptions u fp) env
          = .panicked "called Result::unwrap() on an Err value") ∧
    (∀ (env : CliEnv) (mn : Bool) (fp : String) (md : CliMetadata),
      env.metadataResult = .ok md → md.bag.start_time = none →
        cliMain (.infoOptions mn fp) env
          = .panicked "Bag does not have a start time") := by
  refine ⟨?_, ?_, ?_, ?_⟩
  · intro o env e hm
    cases o <;> simp [cliMain, hm]
  · intro env u fp md e hm hd
    simp [cliMain, hm, print_size, hd]
  · intro env u fp md b e hm hd hr
    simp [cliMain, hm, print_size, hd, hr]
  · intro env mn fp md hm hs
    simp [cliMain, hm, print_all, hs]

theorem cli_error_paths_witness :
    (⟨.error .ioFault, .ok sampleRec, .ok []⟩ : CliEnv).metadataResult
        = .error .ioFault ∧
    cliMain (.topicOptions "a.bag") ⟨.error .ioFault, .ok sampleRec, .ok []⟩
        = .err .ioFault :=
  ⟨rfl, cli_error_paths.1 (.topicOptions "a.bag")
    ⟨.error .ioFault, .ok sampleRec, .ok []⟩ .ioFault rfl⟩

end ClaimEight

section ClaimTen

/-- C10: when the metadata has no start (or no end) time — a zero-chunk
recording — the CLI info path panics through `.expect(...)` rather than
returning an error value (`frost.rs` lines 113–116). -/
theorem print_all_panics_on_missing_time (md : CliMetadata) (minimal : Bool)
    (h : md.bag.start_time = none ∨ md.bag.end_time = none) :
    print_all md minimal = .panicked "Bag does not have a start time" := by
  have hs : md.bag.start_time = none := by
    rcases h with h | h
    · exact h
    · exact end_time_none_imp_start_time_none _ h
  simp [print_all, hs]

theorem print_all_panics_on_missing_time_witness :
    ((⟨⟨[], [], []⟩, "2.0", 0, none⟩ : CliMetadata).bag.start_time = none ∨
      (⟨⟨[], [], []⟩, "2.0", 0, none⟩ : CliMetadata).bag.end_time = none) ∧
    print_all ⟨⟨[], [], []⟩, "2.0", 0, none⟩ false
      = .panicked "Bag does not have a start time" :=
  ⟨Or.inl rfl,
   print_all_panics_on_missing_time ⟨⟨[], [], []⟩, "2.0", 0, none⟩ false
     (Or.inl rfl)⟩

end ClaimTen

section ClaimNine

theorem humanLoop_bytes (b : ℚ) (h : b < 1024) :
    humanLoop humanUnits "bytes" b = ("bytes", b) := by
  simp only [humanUnits, humanLoop]
  rw [if_pos h]

theorem humanLoop_kb (b : ℚ) (h1 : ¬ b < 1024) (h2 : b / 1024 < 1024) :
    humanLoop humanUnits "bytes" b = ("KB", b / 1024) := by
  simp only [humanUnits, humanLoop]
  rw [if_neg h1, if_pos h2]

theorem humanLoop_mb (b : ℚ) (h1 : ¬ b < 1024) (h2 : ¬ b / 1024 < 1024)
    (h3 : b / 1024 / 1024 < 1024) :
    humanLoop humanUnits "bytes" b = ("MB", b / 1024 ^ 2) := by
  simp only [humanUnits, humanLoop]
  rw [if_neg h1, if_neg h2, if_pos h3, div_div]
  norm_num

theorem humanLoop_gb (b : ℚ) (h1 : ¬ b < 1024) (h2 : ¬ b / 1024 < 1024)
    (h3 : ¬ b / 1024 / 1024 < 1024) (h4 : b / 1024 / 1024 / 1024 < 1024) :
    humanLoop humanUnits "bytes" b = ("GB", b / 1024 ^ 3) := by
  simp only [humanUnits, humanLoop]
  rw [if_neg h1, if_neg h2, if_neg h3, if_pos h4, div_div, div_div]
  norm_num

theorem humanLoop_gb_overflow (b : ℚ) (h1 : ¬ b < 1024) (h2 : ¬ b / 1024 < 1024)
    (h3 : ¬ b / 1024 / 1024 < 1024) (h4 : ¬ b / 1024 / 1024 / 1024 < 1024) :
    humanLoop humanUnits "bytes" b = ("GB", b / 1024 ^ 4) := by
  simp only [humanUnits, humanLoop]
  rw [if_neg h1, if_neg h2, if_neg h3, if_neg h4, div_div, div_div, div_div]
  norm_num

theorem fmt2_natCast (n : ℕ) : fmt2 (n : ℚ) = toString n ++ "." ++ pad2 0 := by
  have hx : ((n : ℚ) * 100) = ((n * 100 : ℕ) : ℚ) := by push_cast; ring
  have hround : roundHalfEven ((n : ℚ) * 100) = ((n * 100 : ℕ) : ℤ) := by
    unfold roundHalfEven
    rw [hx, Int.floor_natCast]
    have hfr : ((n * 100 : ℕ) : ℚ) - (((n * 100 : ℕ) : ℤ) : ℚ) = 0 := by
      push_cast; ring
    rw [hfr]
    norm_num
  unfold fmt2
  rw [hround, Int.toNat_natCast, Nat.mul_div_cancel n (by norm_num : (0:ℕ) < 100),
    Nat.mul_mod_left n 100]

/-- The division chain `b/1024/…` compared with 1024 is the integer
comparison with the next power of 1024, for a natural input. -/
theorem natCast_div_pow_lt (b : Nat) (k : Nat) :
    ((b : ℚ) / 1024 ^ k < 1024) ↔ b < 1024 ^ (k + 1) := by
  rw [div_lt_iff (by positivity : (0:ℚ) < 1024 ^ k)]
  rw [show ((1024 : ℚ) * 1024 ^ k) = ((1024 ^ (k + 1) : ℕ) : ℚ) by push_cast; ring]
  exact_mod_cast Iff.rfl

/-- Above 1024^4 every loop iteration divides, so the shown value is
`bytes/1024^4` while the unit stays GB. -/
theorem human_bytes_overflow (b : Nat) (h1 : 1024 ^ 4 ≤ b) :
    human_bytes b
      = fmt2 ((b : ℚ) / 1024 ^ 4) ++ " GB (" ++ toString b ++ " bytes)" := by
  have c0 : ((b : ℚ) < 1024) ↔ b < 1024 := by
    have := natCast_div_pow_lt b 0
    simpa using this
  have c1 := natCast_div_pow_lt b 1
  have c2 := natCast_div_pow_lt b 2
  have c3 := natCast_div_pow_lt b 3
  have d1 : (b : ℚ) / 1024 = (b : ℚ) / 1024 ^ 1 := by norm_num
  have d2 : (b : ℚ) / 1024 / 1024 = (b : ℚ) / 1024 ^ 2 := by
    rw [div_div]; norm_num
  have d3 : (b : ℚ) / 1024 / 1024 / 1024 = (b : ℚ) / 1024 ^ 3 := by
    rw [div_div, div_div]; norm_num
  rw [human_bytes, humanLoop_gb_overflow _ (by rw [c0]; omega)
    (by rw [d1, c1]; omega) (by rw [d2, c2]; omega) (by rw [d3, c3]; omega)]
  simp [String.append_assoc]

/-- C9 amended: `human_bytes` prints the exact byte count below 1024;
otherwise it prints a two-decimal value with unit KB, MB or GB selected by
the thresholds 1024^2, 1024^3, 1024^4, always embedding the exact count —
but for inputs of at least 1024^4 the loop divides once more, so the value
shown is `bytes/1024^4` while the unit stays GB. -/
theorem human_bytes_spec (b : Nat) :
    (b < 1024 → human_bytes b = toString b ++ " bytes") ∧
    (1024 ≤ b → b < 1024 ^ 2 →
      human_bytes b
        = fmt2 ((b : ℚ) / 1024) ++ " KB (" ++ toString b ++ " bytes)") ∧
    (1024 ^ 2 ≤ b → b < 1024 ^ 3 →
      human_bytes b
        = fmt2 ((b : ℚ) / 1024 ^ 2) ++ " MB (" ++ toString b ++ " bytes)") ∧
    (1024 ^ 3 ≤ b → b < 1024 ^ 4 →
      human_bytes b
        = fmt2 ((b : ℚ) / 1024 ^ 3) ++ " GB (" ++ toString b ++ " bytes)") ∧
    (1024 ^ 4 ≤ b →
      human_bytes b
        = fmt2 ((b : ℚ) / 1024 ^ 4) ++ " GB (" ++ toString b ++ " bytes)") := by
  have c0 : ((b : ℚ) < 1024) ↔ b < 1024 := by
    have := natCast_div_pow_lt b 0
    simpa using this
  have c1 := natCast_div_pow_lt b 1
  have c2 := natCast_div_pow_lt b 2
  have c3 := natCast_div_pow_lt b 3
  have d1 : (b : ℚ) / 1024 = (b : ℚ) / 1024 ^ 1 := by norm_num
  have d2 : (b : ℚ) / 1024 / 1024 = (b : ℚ) / 1024 ^ 2 := by
    rw [div_div]; norm_num
  have d3 : (b : ℚ) / 1024 / 1024 / 1024 = (b : ℚ) / 1024 ^ 3 := by
    rw [div_div, div_div]; norm_num
  refine ⟨?_, ?_, ?_, ?_, ?_⟩
  · intro h
    rw [human_bytes, humanLoop_bytes _ (c0.mpr h)]
    simp
  · intro h1 h2
    rw [human_bytes, humanLoop_kb _ (by rw [c0]; omega)
      (by rw [d1, c1]; exact h2)]
    simp [String.append_assoc]
  · intro h1 h2
    rw [human_bytes, humanLoop_mb _ (by rw [c0]; omega)
      (by rw [d1, c1]; omega) (by rw [d2, c2]; exact h2)]
    simp [String.append_assoc]
  · intro h1 h2
    rw [human_bytes, humanLoop_gb _ (by rw [c0]; omega)
      (by rw [d1, c1]; omega) (by rw [d2, c2]; omega)
      (by rw [d3, c3]; exact h2)]
    simp [String.append_assoc]
  · exact human_bytes_overflow b

theorem human_bytes_spec_witness :
    1024 ≤ 2048 ∧ 2048 < 1024 ^ 2 ∧ human_bytes 2048 = "2.00 KB (2048 bytes)" := by
  refine ⟨by norm_num, by norm_num, ?_⟩
  have h := (human_bytes_spec 2048).2.1 (by norm_num) (by norm_num)
  rw [h, show ((2048 : ℕ) : ℚ) / 1024 = ((2 : ℕ) : ℚ) by norm_num, fmt2_natCast]
  decide

/-- C9 counterexample: at `bytes = 1024^4` (one binary terabyte) the code
prints `1.00 GB`, whereas the claim's formula `v = bytes / 1024^k` for the
chosen unit GB (`k = 3`) demands `1024.00 GB`. -/
theorem human_bytes_tb_counterexample :
    human_bytes (1024 ^ 4) = "1.00 GB (1099511627776 bytes)" ∧
    fmt2 ((1024 ^ 4 : ℚ) / 1024 ^ 3) ++ " GB ("
        ++ toString (1024 ^ 4 : Nat) ++ " bytes)"
      = "1024.00 GB (1099511627776 bytes)" ∧
    ("1.00 GB (1099511627776 bytes)" : String)
      ≠ "1024.00 GB (1099511627776 bytes)" := by
  refine ⟨?_, ?_, by decide⟩
  · rw [human_bytes_overflow (1024 ^ 4) (by norm_num)]
    rw [show (((1024 ^ 4 : ℕ) : ℚ) / 1024 ^ 4) = ((1 : ℕ) : ℚ) by
      push_cast; norm_num]
    rw [fmt2_natCast]
    decide
  · rw [show ((1024 ^ 4 : ℚ) / 1024 ^ 3) = ((1024 : ℕ) : ℚ) by norm_num]
    rw [fmt2_natCast]
    decide

end ClaimNine

section ByteFormat

/-- Modelled from the spec: the leading magic/version line of the format
(§4.1, §6), as raw bytes. -/
def MAGIC : List Nat := "#ROSBAG V2.0\n".toList.map Char.toNat

/-- Read `k` bytes off the front of a byte cursor, or fail. -/
def readN (k : Nat) (bs : List Nat) : Option (List Nat × List Nat) :=
  if k ≤ bs.length then some (bs.take k, bs.drop k) else none

/-- Value of a 4-byte little-endian quad. -/
def le32val (quad : List Nat) : Nat :=
  match quad with
  | [b0, b1, b2, b3] => b0 + 256 * (b1 + 256 * (b2 + 256 * b3))
  | _ => 0

/-- Modelled from the spec: read a 4-byte little-endian length (§4.1). -/
def readLE32 (bs : List Nat) : Option (Nat × List Nat) :=
  match readN 4 bs with
  | none => none
  | some (quad, rest) => some (le32val quad, rest)

/-- One record frame: a length-prefixed header block and a length-prefixed
data block (§4.1). -/
structure RawRecord where
  header : List Nat
  data : List Nat
deriving DecidableEq, Repr

/-- Modelled from the spec: the record-framing scan — repeatedly decode a
4-byte header length, the header block, a 4-byte data length and the data
block until the input ends; a declared length exceeding the remaining input
fails with `malformedRecord` (§4.1).  The fuel argument only bounds the
recursion; `parseAll` supplies enough for any input. -/
def parseRecords : Nat → List Nat → Except Error (List RawRecord)
  | 0, _ => .error .malformedRecord
  | _ + 1, [] => .ok []
  | fuel + 1, bs =>
      match readLE32 bs with
      | none => .error .malformedRecord
      | some (hlen, r1) =>
          match readN hlen r1 with
          | none => .error .malformedRecord
          | some (header, r2) =>
              match readLE32 r2 with
              | none => .error .malformedRecord
              | some (dlen, r3) =>
                  match readN dlen r3 with
                  | none => .error .malformedRecord
                  | some (data, r4) =>
                      match parseRecords fuel r4 with
                      | .error e => .error e
                      | .ok rs => .ok (⟨header, data⟩ :: rs)

/-- Frame scan over a whole byte buffer. -/
def parseAll (bs : List Nat) : Except Error (List RawRecord) :=
  parseRecords (bs.length + 1) bs

/-- Bytes to string, for header fields holding names. -/
def natsToStr (l : List Nat) : String := String.mk (l.map Char.ofNat)

/-- Read a length-prefixed string field. -/
def readStr (bs : List Nat) : Option (String × List Nat) :=
  match readLE32 bs with
  | none => none
  | some (len, r1) =>
      match readN len r1 with
      | none => none
      | some (raw, r2) => some (natsToStr raw, r2)

/-- Modelled from the spec: the decoded record kinds relevant to reading —
connection, message-data, chunk, chunk-info and index records (§6). -/
inductive Record
  | conn (id : Nat) (c : Connection)
  | msgRec (m : Message)
  | chunkRec (compression : String) (usize : Nat) (payload : List Nat)
  | infoRec (info : ChunkInfo)
  | indexRec
deriving DecidableEq, Repr

/-- Read `n` chunk-info entries of (connection id, count). -/
def readEntries : Nat → List Nat → Option (List (Nat × Nat) × List Nat)
  | 0, bs => some ([], bs)
  | n + 1, bs =>
      match readLE32 bs with
      | none => none
      | some (id, r1) =>
          match readLE32 r1 with
          | none => none
          | some (cnt, r2) =>
              match readEntries n r2 with
              | none => none
              | some (es, r3) => some ((id, cnt) :: es, r3)

/-- Modelled from the spec: decode one record from its header block; the
leading byte discriminates the record kind (the `op` field of §4.1), the
remaining header bytes carry the kind's fields (field layout simplified to
a fixed order; the spec's key=value framing carries the same data).  A
missing or unknown `op`, or a header too short for its kind, fails with
`malformedRecord`. -/
def decodeRecord (r : RawRecord) : Except Error Record :=
  match r.header with
  | 7 :: rest =>
      (match readLE32 rest with
       | none => .error .malformedRecord
       | some (id, r1) =>
           match readStr r1 with
           | none => .error .malformedRecord
           | some (topic, r2) =>
               match readStr r2 with
               | none => .error .malformedRecord
               | some (dtype, r3) =>
                   match readStr r3 with
                   | none => .error .malformedRecord
                   | some (md5, _) => .ok (.conn id ⟨topic, dtype, md5⟩))
  | 2 :: rest =>
      (match readLE32 rest with
       | none => .error .malformedRecord
       | some (id, r1) =>
           match readLE32 r1 with
           | none => .error .malformedRecord
           | some (sec, r2) =>
               match readLE32 r2 with
               | none => .error .malformedRecord
               | some (ns, _) => .ok (.msgRec ⟨id, ⟨sec, ns⟩, r.data⟩))
  | 5 :: rest =>
      (match readStr rest with
       | none => .error .malformedRecord
       | some (compression, r1) =>
           match readLE32 r1 with
           | none => .error .malformedRecord
           | some (usize, _) => .ok (.chunkRec compression usize r.data))
  | 6 :: rest =>
      (match readLE32 rest with
       | none => .error .malformedRecord
       | some (ssec, r1) =>
           match readLE32 r1 with
           | none => .error .malformedRecord
           | some (sns, r2) =>
               match readLE32 r2 with
               | none => .error .malformedRecord
               | some (esec, r3) =>
                   match readLE32 r3 with
                   | none => .error .malformedRecord
                   | some (ens, r4) =>
                       match readLE32 r4 with
                       | none => .error .malformedRecord
                       | some (n, r5) =>
                           match readEntries n r5 with
                           | none => .error .malformedRecord
                           | some (es, _) =>
                               .ok (.infoRec ⟨⟨ssec, sns⟩, ⟨esec, ens⟩, es⟩))
  | 4 :: _ => .ok .indexRec
  | _ => .error .malformedRecord

/-- Decode a whole frame list. -/
def decodeAll : List RawRecord → Except Error (List Record)
  | [] => .ok []
  | r :: rs =>
      match decodeRecord r with
      | .error e => .error e
      | .ok d =>
          match decodeAll rs with
          | .error e => .error e
          | .ok ds => .ok (d :: ds)

/-- Modelled from the spec: the compression codec registry (§4.2) — the
identity codec `none` demands byte-length equality; the spec's further
codecs (a byte-oriented and a block codec) act as black boxes outside the
claims, so an unknown name fails with `unsupportedCompression` and a length
mismatch with `decompressFailed`. -/
def decompress (name : String) (expected : Nat) (payload : List Nat) :
    Except Error (List Nat) :=
  if name = "none" then
    (if payload.length = expected then .ok payload else .error .decompressFailed)
  else .error (.unsupportedCompression name)

/-- Keep the message records of a decoded record list. -/
def msgsOf (recs : List Record) : List Message :=
  recs.filterMap (fun r => match r with | .msgRec m => some m | _ => none)

/-- Modelled from the spec: decompress one chunk and parse the message
records inside it (§4.3, §4.5). -/
def chunkMessages (compression : String) (usize : Nat) (payload : List Nat) :
    Except Error (List Message) :=
  match decompress compression usize payload with
  | .error e => .error e
  | .ok bytes =>
      match parseAll bytes with
      | .error e => .error e
      | .ok raws =>
          match decodeAll raws with
          | .error e => .error e
          | .ok recs => .ok (msgsOf recs)

/-- Connection records of a decoded list, keyed by id, first wins. -/
def connsOf : List Record → List (Nat × Connection)
  | [] => []
  | .conn id c :: rest => (id, c) :: (connsOf rest).filter (fun e => e.1 != id)
  | _ :: rest => connsOf rest

/-- Chunk records of a decoded list, in file order. -/
def chunksOf : List Record → List (String × Nat × List Nat)
  | [] => []
  | .chunkRec comp usize payload :: rest => (comp, usize, payload) :: chunksOf rest
  | _ :: rest => chunksOf rest

/-- Chunk-info records of a decoded list, in file order. -/
def infosOf : List Record → List ChunkInfo
  | [] => []
  | .infoRec i :: rest => i :: infosOf rest
  | _ :: rest => infosOf rest

/-- Decompress and parse every chunk of a decoded record list. -/
def scanChunks : List Record → Except Error (List (List Message))
  | [] => .ok []
  | .chunkRec comp usize payload :: rest =>
      (match chunkMessages comp usize payload with
       | .error e => .error e
       | .ok msgs =>
           match scanChunks rest with
           | .error e => .error e
           | .ok rests => .ok (msgs :: rests))
  | _ :: rest => scanChunks rest

/-- Modelled from the spec: the aggregate read-only summary (§3
"BagMetadata") — version, optional file path (absent for in-memory
sources), byte size, the connection catalog (which determines `topics()`
and `types()`), per-connection message counts, and the global time
bounds. -/
structure BagMetadata where
  version : String
  file_path : Option String
  num_bytes : Nat
  connections : List (Nat × Connection)
  conn_counts : List (Nat × Nat)
  start_time : Option Time
  end_time : Option Time
deriving DecidableEq, Repr

/-- Modelled from the spec: catalog construction from the trailing index —
counts and time bounds are read from the chunk-info records without
decompressing any chunk (§4.4, "indexed" variant). -/
def buildIndexed (v : String) (nb : Nat) (recs : List Record) : BagMetadata :=
  { version := v
    file_path := none
    num_bytes := nb
    connections := connsOf recs
    conn_counts := (connsOf recs).map
      (fun e => (e.1, ((infosOf recs).map
        (fun i => i.countFor (fun x => x == e.1))).sum))
    start_time := minTimeList ((infosOf recs).map ChunkInfo.start_time)
    end_time := maxTimeList ((infosOf recs).map ChunkInfo.end_time) }

/-- Modelled from the spec: catalog construction by full linear scan —
every chunk is decompressed and its message records are counted and
time-bounded directly (§4.4, "scanned" fallback variant). -/
def buildScan (v : String) (nb : Nat) (recs : List Record) :
    Except Error BagMetadata :=
  match scanChunks recs with
  | .error e => .error e
  | .ok msgss =>
      .ok { version := v
            file_path := none
            num_bytes := nb
            connections := connsOf recs
            conn_counts := (connsOf recs).map
              (fun e => (e.1,
                (msgss.flatten.filter (fun m => m.conn_id == e.1)).length))
            start_time := minTimeList (msgss.flatten.map Message.time)
            end_time := maxTimeList (msgss.flatten.map Message.time) }

/-- Modelled from the spec: validate the magic line, then frame-scan and
decode the record stream (§4.1, §4.5). -/
def openRaw (bytes : List Nat) : Except Error (List Record) :=
  if bytes.take MAGIC.length = MAGIC then
    match parseAll (bytes.drop MAGIC.length) with
    | .error e => .error e
    | .ok raws => decodeAll raws
  else .error .invalidFormat

/-- Modelled from the spec: a lazy handle — the computed metadata plus the
decoded record stream it iterates (§4.5). -/
structure Bag where
  metadata : BagMetadata
  records : List Record
deriving DecidableEq, Repr

/-- Modelled from the spec: `Bag::from_bytes` — validate the header, build
the catalog from the trailing index when chunk-info records are present,
fall back to the full scan when the index is absent or empty (§4.4, §4.5);
the file path is absent for an in-memory source (§3). -/
def fromBytes (w : List Nat) : Except Error Bag :=
  match openRaw w with
  | .error e => .error e
  | .ok recs =>
      if (infosOf recs).isEmpty then
        match buildScan "2.0" w.length recs with
        | .error e => .error e
        | .ok md => .ok ⟨md, recs⟩
      else .ok ⟨buildIndexed "2.0" w.length recs, recs⟩

/-- Modelled from the spec: `Bag::from(path)` — read the file contents from
the file system (modelled as a map from paths to contents), then proceed as
`from_bytes`, additionally recording the file path in the metadata (§3,
§4.5); an unreadable path fails with the `Io` kind (§7). -/
def fromFile (path : String) (fs : String → Option (List Nat)) :
    Except Error Bag :=
  match fs path with
  | none => .error .ioFault
  | some bytes =>
      match fromBytes bytes with
      | .error e => .error e
      | .ok b => .ok ⟨{ b.metadata with file_path := some path }, b.records⟩

/-- Is an `Except` a success? -/
def isOkE {α : Type} : Except Error α → Bool
  | .ok _ => true
  | .error _ => false

/-- A byte buffer is well formed when it opens and every chunk in it
decompresses and parses. -/
def wellFormedBytes (w : List Nat) : Bool :=
  match openRaw w with
  | .error _ => false
  | .ok recs => isOkE (scanChunks recs)

/-- Lift `viewOf` to a bare connection catalog. -/
def viewOfConns (conns : List (Nat × Connection)) (q : Query) (m : Message) :
    Option MessageView :=
  viewOf ⟨conns, [], []⟩ q m

/-- Modelled from the spec: iteration with per-element error surfacing —
chunks are visited in file order; a chunk that fails to decompress or parse
surfaces the error at that element and ends the sequence, leaving the
already-produced elements intact (§4.5, §7). -/
def readRecsE (conns : List (Nat × Connection)) (q : Query) :
    List Record → List (Except Error MessageView)
  | [] => []
  | .chunkRec comp usize payload :: rest =>
      (match chunkMessages comp usize payload with
       | .error e => [.error e]
       | .ok msgs =>
           (msgs.filterMap (viewOfConns conns q)).map .ok
             ++ readRecsE conns q rest)
  | _ :: rest => readRecsE conns q rest

/-- Message sequence of a bag, with iteration-time error surfacing. -/
def Bag.read_messages (b : Bag) (q : Query) : List (Except Error MessageView) :=
  readRecsE b.metadata.connections q b.records

instance exceptDecEq {ε α : Type} [DecidableEq ε] [DecidableEq α] :
    DecidableEq (Except ε α) := fun x y =>
  match x, y with
  | .ok a, .ok b =>
      if h : a = b then isTrue (by rw [h])
      else isFalse (fun hc => h (Except.ok.inj hc))
  | .ok _, .error _ => isFalse (fun hc => Except.noConfusion hc)
  | .error _, .ok _ => isFalse (fun hc => Except.noConfusion hc)
  | .error e, .error f =>
      if h : e = f then isTrue (by rw [h])
      else isFalse (fun hc => h (Except.error.inj hc))

end ByteFormat

section SampleFiles

/-- 4-byte little-endian encoding of a length or id. -/
def le32bytes (n : Nat) : List Nat :=
  [n % 256, n / 256 % 256, n / 65536 % 256, n / 16777216 % 256]

/-- Length-prefixed string field bytes. -/
def strBytes (s : String) : List Nat :=
  le32bytes s.length ++ s.toList.map Char.toNat

/-- Frame one record: header length, header, data length, data. -/
def mkRecord (header data : List Nat) : List Nat :=
  le32bytes header.length ++ header ++ le32bytes data.length ++ data

/-- A connection record: id 0, topic `/cam`. -/
def sampleConnRec : List Nat :=
  mkRecord ([7] ++ le32bytes 0 ++ strBytes "/cam" ++ strBytes "T" ++ strBytes "m") []

/-- One message record on connection 0 at time 1s, framed. -/
def sampleMsgBytes : List Nat :=
  mkRecord ([2] ++ le32bytes 0 ++ le32bytes 1 ++ le32bytes 0) [9, 9]

/-- An identity-compressed chunk holding the one message record. -/
def sampleChunkRec : List Nat :=
  mkRecord ([5] ++ strBytes "none" ++ le32bytes sampleMsgBytes.length) sampleMsgBytes

/-- A chunk-info record consistent with the chunk: one message on
connection 0, time bounds [1s, 1s]. -/
def sampleInfoRec : List Nat :=
  mkRecord ([6] ++ le32bytes 1 ++ le32bytes 0 ++ le32bytes 1 ++ le32bytes 0
    ++ le32bytes 1 ++ le32bytes 0 ++ le32bytes 1) []

/-- A complete well-formed recording: magic, connection, chunk, index. -/
def sampleBytes : List Nat := MAGIC ++ sampleConnRec ++ sampleChunkRec ++ sampleInfoRec

/-- The same recording truncated at a record boundary: the trailing
chunk-info record is missing, as for an unsafely-closed file. -/
def sampleTruncated : List Nat := MAGIC ++ sampleConnRec ++ sampleChunkRec

/-- A chunk-info record that lies: it claims two messages on connection 0
while the chunk stores one. -/
def lyingInfoRec : List Nat :=
  mkRecord ([6] ++ le32bytes 1 ++ le32bytes 0 ++ le32bytes 1 ++ le32bytes 0
    ++ le32bytes 1 ++ le32bytes 0 ++ le32bytes 2) []

/-- A recording whose trailing index disagrees with its chunk contents. -/
def lyingBytes : List Nat := MAGIC ++ sampleConnRec ++ sampleChunkRec ++ lyingInfoRec

end SampleFiles

section ClaimSix

/-- Forget the file-path field, keeping every other observable. -/
def stripPath (b : Bag) : Bag :=
  ⟨{ b.metadata with file_path := none }, b.records⟩

/-- A file system exposing `sampleBytes` under every path. -/
def sampleFs : String → Option (List Nat) := fun _ => some sampleBytes

/-- C6 counterexample: on the same well-formed bytes, `from_bytes` records
no file path while `from(path)` records `path`, so the two `BagMetadata`
values are not equal. -/
theorem from_file_metadata_differs_counterexample :
    (fromBytes sampleBytes).map (fun b => b.metadata.file_path) = .ok none ∧
    (fromFile "x.bag" sampleFs).map (fun b => b.metadata.file_path)
      = .ok (some "x.bag") ∧
    fromFile "x.bag" sampleFs ≠ fromBytes sampleBytes := by
  refine ⟨by decide, by decide, by decide⟩

/-- C6 amended: when `path`'s contents equal `x`, `from(path)` and
`from_bytes(x)` agree on everything except the recorded file path — the
metadata stripped of `file_path` coincides, `from(path)` sets
`file_path := path` on the very bag `from_bytes` returns, and the yielded
message sequences are equal element for element, for every query. -/
theorem from_file_eq_from_bytes (path : String)
    (fs : String → Option (List Nat)) (x : List Nat) (h : fs path = some x) :
    (fromFile path fs).map stripPath = (fromBytes x).map stripPath ∧
    (∀ b, fromBytes x = .ok b →
      fromFile path fs
        = .ok ⟨{ b.metadata with file_path := some path }, b.records⟩) ∧
    (∀ q : Query,
      (fromFile path fs).map (fun b => b.read_messages q)
        = (fromBytes x).map (fun b => b.read_messages q)) := by
  refine ⟨?_, ?_, ?_⟩
  · rw [fromFile, h]
    dsimp only
    cases hb : fromBytes x with
    | error e => rfl
    | ok b => simp [Except.map, stripPath]
  · intro b hb
    rw [fromFile, h]
    dsimp only
    rw [hb]
  · intro q
    rw [fromFile, h]
    dsimp only
    cases hb : fromBytes x with
    | error e => rfl
    | ok b => simp [Except.map, Bag.read_messages]

theorem from_file_eq_from_bytes_witness :
    sampleFs "x.bag" = some sampleBytes ∧
    ((fromFile "x.bag" sampleFs).map stripPath
        = (fromBytes sampleBytes).map stripPath ∧
      (∀ b, fromBytes sampleBytes = .ok b →
        fromFile "x.bag" sampleFs
          = .ok ⟨{ b.metadata with file_path := some "x.bag" }, b.records⟩) ∧
      (∀ q : Query,
        (fromFile "x.bag" sampleFs).map (fun b => b.read_messages q)
          = (fromBytes sampleBytes).map (fun b => b.read_messages q))) :=
  ⟨rfl, from_file_eq_from_bytes "x.bag" sampleFs sampleBytes rfl⟩

end ClaimSix

section ClaimTwo

/-- Optional minimum combinator. -/
def combMin : Option Time → Option Time → Option Time
  | none, y => y
  | some t, none => some t
  | some t, some u => some (if Time.leb t u then t else u)

/-- Optional maximum combinator. -/
def combMax : Option Time → Option Time → Option Time
  | none, y => y
  | some t, none => some t
  | some t, some u => some (if Time.leb t u then u else t)

theorem minTimeList_cons (t : Time) (l : List Time) :
    minTimeList (t :: l) = combMin (some t) (minTimeList l) := by
  cases h : minTimeList l <;> simp [minTimeList, combMin, h]

theorem maxTimeList_cons (t : Time) (l : List Time) :
    maxTimeList (t :: l) = combMax (some t) (maxTimeList l) := by
  cases h : maxTimeList l <;> simp [maxTimeList, combMax, h]

theorem combMin_assoc (x y z : Option Time) :
    combMin x (combMin y z) = combMin (combMin x y) z := by
  rcases x with _ | a <;> rcases y with _ | b <;> rcases z with _ | c <;>
    simp only [combMin]
  split_ifs <;> (try rfl) <;>
    (cases a; cases b; cases c;
     simp only [Time.leb_iff, Time.mk.injEq] at *; omega)

theorem combMax_assoc (x y z : Option Time) :
    combMax x (combMax y z) = combMax (combMax x y) z := by
  rcases x with _ | a <;> rcases y with _ | b <;> rcases z with _ | c <;>
    simp only [combMax]
  split_ifs <;> (try rfl) <;>
    (cases a; cases b; cases c;
     simp only [Time.leb_iff, Time.mk.injEq] at *; omega)

theorem minTimeList_append (a b : List Time) :
    minTimeList (a ++ b) = combMin (minTimeList a) (minTimeList b) := by
  induction a with
  | nil => simp [minTimeList, combMin]
  | cons t a' ih =>
      rw [List.cons_append, minTimeList_cons, ih, minTimeList_cons,
        combMin_assoc]

theorem maxTimeList_append (a b : List Time) :
    maxTimeList (a ++ b) = combMax (maxTimeList a) (maxTimeList b) := by
  induction a with
  | nil => simp [maxTimeList, combMax]
  | cons t a' ih =>
      rw [List.cons_append, maxTimeList_cons, ih, maxTimeList_cons,
        combMax_assoc]

/-- Summing one value per index pair, transported along a zip. -/
theorem sum_zip_congr {α β : Type} (f : α → Nat) (g : β → Nat) :
    ∀ (A : List α) (B : List β), A.length = B.length →
    (∀ p ∈ A.zip B, f p.1 = g p.2) →
    (A.map f).sum = (B.map g).sum := by
  intro A
  induction A with
  | nil =>
      intro B hlen _
      cases B with
      | nil => rfl
      | cons b bs => exact absurd hlen (by simp)
  | cons a as ih =>
      intro B hlen hp
      cases B with
      | nil => exact absurd hlen (by simp)
      | cons b bs =>
          have h1 : f a = g b := hp (a, b) (by simp [List.zip_cons_cons])
          have h2 := ih bs (by simpa using hlen)
            (fun p hpm => hp p (by simp [List.zip_cons_cons, hpm]))
          simp only [List.map_cons, List.sum_cons, h1, h2]

/-- The min over concatenated chunk messages equals the min over per-chunk
lower bounds, when each bound is exact. -/
theorem minTimeList_join_eq {α : Type} (startOf : α → Time) :
    ∀ (A : List α) (B : List (List Message)), A.length = B.length →
    (∀ p ∈ A.zip B, minTimeList (p.2.map Message.time) = some (startOf p.1)) →
    minTimeList (B.flatten.map Message.time) = minTimeList (A.map startOf) := by
  intro A
  induction A with
  | nil =>
      intro B hlen _
      cases B with
      | nil => rfl
      | cons b bs => exact absurd hlen (by simp)
  | cons a as ih =>
      intro B hlen hp
      cases B with
      | nil => exact absurd hlen (by simp)
      | cons b bs =>
          have h1 : minTimeList (b.map Message.time) = some (startOf a) :=
            hp (a, b) (by simp [List.zip_cons_cons])
          have h2 := ih bs (by simpa using hlen)
            (fun p hpm => hp p (by simp [List.zip_cons_cons, hpm]))
          rw [List.flatten_cons, List.map_append, minTimeList_append, h1,
            List.map_cons, minTimeList_cons, h2]

theorem maxTimeList_join_eq {α : Type} (endOf : α → Time) :
    ∀ (A : List α) (B : List (List Message)), A.length = B.length →
    (∀ p ∈ A.zip B, maxTimeList (p.2.map Message.time) = some (endOf p.1)) →
    maxTimeList (B.flatten.map Message.time) = maxTimeList (A.map endOf) := by
  intro A
  induction A with
  | nil =>
      intro B hlen _
      cases B with
      | nil => rfl
      | cons b bs => exact absurd hlen (by simp)
  | cons a as ih =>
      intro B hlen hp
      cases B with
      | nil => exact absurd hlen (by simp)
      | cons b bs =>
          have h1 : maxTimeList (b.map Message.time) = some (endOf a) :=
            hp (a, b) (by simp [List.zip_cons_cons])
          have h2 := ih bs (by simpa using hlen)
            (fun p hpm => hp p (by simp [List.zip_cons_cons, hpm]))
          rw [List.flatten_cons, List.map_append, maxTimeList_append, h1,
            List.map_cons, maxTimeList_cons, h2]

/-- Filtering distributes over the concatenation of chunk messages. -/
theorem length_filter_join (p : Message → Bool) :
    ∀ (msgss : List (List Message)),
    (msgss.flatten.filter p).length
      = (msgss.map (fun l => (l.filter p).length)).sum := by
  intro msgss
  induction msgss with
  | nil => rfl
  | cons l ls ih =>
      rw [List.flatten_cons, List.filter_append, List.length_append, ih]
      simp

/-- The indexed and scanned catalog paths agree whenever the trailing index
is consistent with the chunk contents. -/
def consistentIndex (recs : List Record) : Bool :=
  match scanChunks recs with
  | .error _ => false
  | .ok msgss =>
      ((infosOf recs).length == msgss.length) &&
      ((infosOf recs).zip msgss).all (fun pr =>
        (pr.1.counts == countsOfMsgs pr.2) &&
        (minTimeList (pr.2.map Message.time) == some pr.1.start_time) &&
        (maxTimeList (pr.2.map Message.time) == some pr.1.end_time))

/-- Catalog of a byte buffer via the trailing index. -/
def metaIndexedBytes (w : List Nat) : Except Error BagMetadata :=
  match openRaw w with
  | .error e => .error e
  | .ok recs => .ok (buildIndexed "2.0" w.length recs)

/-- Catalog of a byte buffer via the full linear scan. -/
def metaScanBytes (w : List Nat) : Except Error BagMetadata :=
  match openRaw w with
  | .error e => .error e
  | .ok recs => buildScan "2.0" w.length recs

/-- C2 counterexample: a byte sequence whose trailing index claims two
messages while the chunk stores one; both catalog constructions succeed on
it but produce different `BagMetadata`. -/
theorem catalog_paths_differ_counterexample :
    isOkE (metaIndexedBytes lyingBytes) = true ∧
    isOkE (metaScanBytes lyingBytes) = true ∧
    metaIndexedBytes lyingBytes ≠ metaScanBytes lyingBytes := by
  refine ⟨by decide, by decide, by decide⟩

/-- C2 amended: on every byte sequence that opens and whose trailing index
is consistent with the chunk contents (per-chunk per-connection counts and
exact time bounds — the invariant every writer-produced recording has), the
indexed catalog and the full-scan catalog produce identical `BagMetadata`
(same connections, hence same topics and types, same counts, same time
bounds). -/
theorem catalog_index_scan_equiv (w : List Nat) (recs : List Record)
    (hopen : openRaw w = .ok recs) (hcons : consistentIndex recs = true) :
    metaScanBytes w = metaIndexedBytes w := by
  rw [metaScanBytes, metaIndexedBytes, hopen]
  dsimp only
  unfold consistentIndex at hcons
  cases hscan : scanChunks recs with
  | error e => rw [hscan] at hcons; exact absurd hcons (by simp)
  | ok msgss =>
      rw [hscan] at hcons
      rw [Bool.and_eq_true, beq_iff_eq] at hcons
      obtain ⟨hlen, hall⟩ := hcons
      rw [List.all_eq_true] at hall
      have hfacts : ∀ pr ∈ (infosOf recs).zip msgss,
          pr.1.counts = countsOfMsgs pr.2 ∧
          minTimeList (pr.2.map Message.time) = some pr.1.start_time ∧
          maxTimeList (pr.2.map Message.time) = some pr.1.end_time := by
        intro pr hpr
        have := hall pr hpr
        rw [Bool.and_eq_true, Bool.and_eq_true, beq_iff_eq, beq_iff_eq,
          beq_iff_eq] at this
        exact ⟨this.1.1, this.1.2, this.2⟩
      unfold buildScan
      rw [hscan]
      dsimp only
      congr 1
      rw [buildIndexed]
      refine BagMetadata.mk.injEq .. |>.mpr ⟨rfl, rfl, rfl, rfl, ?_, ?_, ?_⟩
      · apply List.map_congr_left
        intro e _
        refine congrArg _ ?_
        rw [length_filter_join]
        refine (sum_zip_congr _ _ (infosOf recs) msgss hlen ?_).symm
        intro pr hpr
        rw [ChunkInfo.countFor, (hfacts pr hpr).1]
        exact countsOfMsgs_countFor pr.2 (fun x => x == e.1)
      · exact minTimeList_join_eq ChunkInfo.start_time (infosOf recs) msgss
          hlen (fun pr hpr => (hfacts pr hpr).2.1)
      · exact maxTimeList_join_eq ChunkInfo.end_time (infosOf recs) msgss
          hlen (fun pr hpr => (hfacts pr hpr).2.2)

/-- The decoded record list of `sampleBytes`. -/
def sampleRecs : List Record :=
  [.conn 0 ⟨"/cam", "T", "m"⟩,
   .chunkRec "none" 23
     [13, 0, 0, 0, 2, 0, 0, 0, 0, 1, 0, 0, 0, 0, 0, 0, 0, 2, 0, 0, 0, 9, 9],
   .infoRec ⟨⟨1, 0⟩, ⟨1, 0⟩, [(0, 1)]⟩]

theorem catalog_index_scan_equiv_witness :
    openRaw sampleBytes = .ok sampleRecs ∧
    consistentIndex sampleRecs = true ∧
    metaScanBytes sampleBytes = metaIndexedBytes sampleBytes :=
  ⟨by decide, by decide,
   catalog_index_scan_equiv sampleBytes sampleRecs (by decide) (by decide)⟩

end ClaimTwo

section ClaimFive

theorem readN_eq_some {k : Nat} {bs a rest : List Nat}
    (h : readN k bs = some (a, rest)) :
    k ≤ bs.length ∧ a = bs.take k ∧ rest = bs.drop k := by
  unfold readN at h
  split at h
  · rename_i hk
    cases h
    exact ⟨hk, rfl, rfl⟩
  · exact absurd h (by simp)

theorem readN_full {k : Nat} {bs : List Nat} (hk : k ≤ bs.length) :
    readN k bs = some (bs.take k, bs.drop k) := by
  unfold readN
  rw [if_pos hk]

theorem readN_take {w : List Nat} {k : Nat} (hk : k ≤ w.length) (n : Nat) :
    readN k (w.take n)
      = if k ≤ n then some (w.take k, (w.drop k).take (n - k)) else none := by
  unfold readN
  by_cases h : k ≤ n
  · rw [if_pos h, if_pos]
    · rw [List.take_take, Nat.min_def, if_pos h, List.drop_take]
    · rw [List.length_take]
      exact le_min h hk
  · rw [if_neg h, if_neg]
    intro hc
    rw [List.length_take] at hc
    exact h (le_trans hc (min_le_left _ _))

theorem readLE32_eq_some {bs : List Nat} {v : Nat} {rest : List Nat}
    (h : readLE32 bs = some (v, rest)) :
    4 ≤ bs.length ∧ v = le32val (bs.take 4) ∧ rest = bs.drop 4 := by
  unfold readLE32 at h
  cases hr : readN 4 bs with
  | none => rw [hr] at h; exact absurd h (by simp)
  | some pr =>
      rw [hr] at h
      obtain ⟨h1, h2, h3⟩ := readN_eq_some hr
      cases h
      exact ⟨h1, by rw [h2], h3⟩

theorem readLE32_take {w : List Nat} (hk : 4 ≤ w.length) (n : Nat) :
    readLE32 (w.take n)
      = if 4 ≤ n then some (le32val (w.take 4), (w.drop 4).take (n - 4))
        else none := by
  unfold readLE32
  rw [readN_take hk n]
  by_cases h : 4 ≤ n
  · rw [if_pos h, if_pos h]
  · rw [if_neg h, if_neg h]

theorem parseRecords_cons (f : Nat) (b : Nat) (bs : List Nat) :
    parseRecords (f + 1) (b :: bs)
      = match readLE32 (b :: bs) with
        | none => .error .malformedRecord
        | some (hlen, r1) =>
            match readN hlen r1 with
            | none => .error .malformedRecord
            | some (header, r2) =>
                match readLE32 r2 with
                | none => .error .malformedRecord
                | some (dlen, r3) =>
                    match readN dlen r3 with
                    | none => .error .malformedRecord
                    | some (data, r4) =>
                        match parseRecords f r4 with
                        | .error e => .error e
                        | .ok rs => .ok (⟨header, data⟩ :: rs) := rfl

/-- The fuel argument of `parseRecords` is irrelevant once it exceeds the
input length. -/
theorem parseRecords_fuel_eq :
    ∀ (f : Nat) (w : List Nat), w.length < f →
      parseRecords f w = parseRecords (w.length + 1) w := by
  intro f
  induction f using Nat.strong_induction_on with
  | _ f ih =>
    intro w hw
    match f, w with
    | 0, w => exact absurd hw (by omega)
    | f' + 1, [] => rfl
    | f' + 1, b :: bs =>
        rw [parseRecords_cons, show (b :: bs).length = bs.length + 1 from rfl,
          parseRecords_cons]
        cases h1 : readLE32 (b :: bs) with
        | none => rfl
        | some pr1 =>
            obtain ⟨hlen, r1⟩ := pr1
            obtain ⟨hw4, _, hr1⟩ := readLE32_eq_some h1
            dsimp only
            cases h2 : readN hlen r1 with
            | none => rfl
            | some pr2 =>
                obtain ⟨header, r2⟩ := pr2
                obtain ⟨hh2, _, hr2⟩ := readN_eq_some h2
                dsimp only
                cases h3 : readLE32 r2 with
                | none => rfl
                | some pr3 =>
                    obtain ⟨dlen, r3⟩ := pr3
                    obtain ⟨hh3, _, hr3⟩ := readLE32_eq_some h3
                    dsimp only
                    cases h4 : readN dlen r3 with
                    | none => rfl
                    | some pr4 =>
                        obtain ⟨data, r4⟩ := pr4
                        obtain ⟨hh4, _, hr4⟩ := readN_eq_some h4
                        dsimp only
                        have hlen4 : r4.length < (b :: bs).length := by
                          rw [hr4, List.length_drop, hr3, List.length_drop,
                            hr2, List.length_drop, hr1, List.length_drop]
                          simp only [List.length_cons]
                          omega
                        have e1 : parseRecords f' r4
                            = parseRecords (r4.length + 1) r4 :=
                          ih f' (Nat.lt_succ_self _) r4 (by
                            have hwl : (b :: bs).length < f' + 1 := hw
                            simp only [List.length_cons] at hwl hlen4
                            omega)
                        have e2 : parseRecords (bs.length + 1) r4
                            = parseRecords (r4.length + 1) r4 :=
                          ih (bs.length + 1) (by
                            simp only [List.length_cons] at hw
                            omega) r4 (by
                            simp only [List.length_cons] at hlen4
                            omega)
                        rw [e1, e2]

/-- Frame-scanning a prefix of a scannable buffer either succeeds with a
prefix of the records or fails with `malformedRecord` (a record frame cut
in half). -/
theorem parseRecords_take :
    ∀ (f : Nat) (w : List Nat) (rs : List RawRecord),
      parseRecords f w = .ok rs → ∀ n : Nat,
      (∃ k, parseRecords f (w.take n) = .ok (rs.take k)) ∨
      parseRecords f (w.take n) = .error .malformedRecord := by
  intro f
  induction f with
  | zero =>
      intro w rs h n
      exact absurd h (by simp [parseRecords])
  | succ f' ih =>
      intro w rs h n
      cases w with
      | nil =>
          rw [show parseRecords (f' + 1) ([] : List Nat) = .ok [] from rfl] at h
          cases h
          exact Or.inl ⟨0, by simp [parseRecords]⟩
      | cons b bs =>
          rw [parseRecords_cons] at h
          cases h1 : readLE32 (b :: bs) with
          | none => rw [h1] at h; exact absurd h (by simp)
          | some pr1 =>
            obtain ⟨hlen, r1⟩ := pr1
            obtain ⟨hw4, hv, hr1⟩ := readLE32_eq_some h1
            rw [h1] at h
            dsimp only at h
            cases h2 : readN hlen r1 with
            | none => rw [h2] at h; exact absurd h (by simp)
            | some pr2 =>
              obtain ⟨header, r2⟩ := pr2
              obtain ⟨hh2, hhd, hr2⟩ := readN_eq_some h2
              rw [h2] at h
              dsimp only at h
              cases h3 : readLE32 r2 with
              | none => rw [h3] at h; exact absurd h (by simp)
              | some pr3 =>
                obtain ⟨dlen, r3⟩ := pr3
                obtain ⟨hh3, hdv, hr3⟩ := readLE32_eq_some h3
                rw [h3] at h
                dsimp only at h
                cases h4 : readN dlen r3 with
                | none => rw [h4] at h; exact absurd h (by simp)
                | some pr4 =>
                  obtain ⟨data, r4⟩ := pr4
                  obtain ⟨hh4, hdt, hr4⟩ := readN_eq_some h4
                  rw [h4] at h
                  dsimp only at h
                  cases h5 : parseRecords f' r4 with
                  | error e => rw [h5] at h; exact absurd h (by simp)
                  | ok rs' =>
                    rw [h5] at h
                    dsimp only at h
                    cases h
                    -- now rs = ⟨header, data⟩ :: rs'
                    rcases n with _ | m
                    · exact Or.inl ⟨0, by simp [parseRecords]⟩
                    · have htail : (b :: bs).take (m + 1) = b :: bs.take m := rfl
                      rw [htail, parseRecords_cons]
                      have hL := readLE32_take (w := b :: bs) hw4 (m + 1)
                      rw [htail] at hL
                      rw [hL]
                      by_cases hc1 : 4 ≤ m + 1
                      · rw [if_pos hc1]
                        dsimp only
                        rw [← hv, ← hr1]
                        rw [readN_take (w := r1) hh2 (m + 1 - 4)]
                        by_cases hc2 : hlen ≤ m + 1 - 4
                        · rw [if_pos hc2]
                          dsimp only
                          rw [← hhd, ← hr2]
                          have hL3 := readLE32_take (w := r2) hh3 (m + 1 - 4 - hlen)
                          rw [hL3]
                          by_cases hc3 : 4 ≤ m + 1 - 4 - hlen
                          · rw [if_pos hc3]
                            dsimp only
                            rw [← hdv, ← hr3]
                            rw [readN_take (w := r3) hh4 (m + 1 - 4 - hlen - 4)]
                            by_cases hc4 : dlen ≤ m + 1 - 4 - hlen - 4
                            · rw [if_pos hc4]
                              dsimp only
                              rw [← hdt, ← hr4]
                              rcases ih r4 rs' h5 (m + 1 - 4 - hlen - 4 - dlen)
                                with ⟨k, hk⟩ | herr
                              · rw [hk]
                                exact Or.inl ⟨k + 1, rfl⟩
                              · rw [herr]
                                exact Or.inr rfl
                            · rw [if_neg hc4]
                              exact Or.inr rfl
                          · rw [if_neg hc3]
                            exact Or.inr rfl
                        · rw [if_neg hc2]
                          exact Or.inr rfl
                      · rw [if_neg hc1]
                        exact Or.inr rfl

theorem parseAll_take {w : List Nat} {rs : List RawRecord}
    (h : parseAll w = .ok rs) (n : Nat) :
    (∃ k, parseAll (w.take n) = .ok (rs.take k)) ∨
    parseAll (w.take n) = .error .malformedRecord := by
  have h' : parseRecords (w.length + 1) w = .ok rs := h
  have hb : parseRecords (w.length + 1) (w.take n)
      = parseRecords ((w.take n).length + 1) (w.take n) :=
    parseRecords_fuel_eq _ _ (by rw [List.length_take]; omega)
  rcases parseRecords_take (w.length + 1) w rs h' n with ⟨k, hk⟩ | herr
  · exact Or.inl ⟨k, by rw [parseAll, ← hb, hk]⟩
  · exact Or.inr (by rw [parseAll, ← hb, herr])

theorem decodeAll_take :
    ∀ (rs : List RawRecord) (ds : List Record), decodeAll rs = .ok ds →
      ∀ k, decodeAll (rs.take k) = .ok (ds.take k) := by
  intro rs
  induction rs with
  | nil =>
      intro ds h k
      rw [show decodeAll [] = .ok [] from rfl] at h
      cases h
      simp [decodeAll]
  | cons r rs' ih =>
      intro ds h k
      rw [show decodeAll (r :: rs')
          = (match decodeRecord r with
             | .error e => .error e
             | .ok d =>
                 match decodeAll rs' with
                 | .error e => .error e
                 | .ok ds' => .ok (d :: ds')) from rfl] at h
      cases hd : decodeRecord r with
      | error e => rw [hd] at h; exact absurd h (by simp)
      | ok d =>
          rw [hd] at h
          dsimp only at h
          cases hds : decodeAll rs' with
          | error e => rw [hds] at h; exact absurd h (by simp)
          | ok ds' =>
              rw [hds] at h
              dsimp only at h
              cases h
              rcases k with _ | k'
              · simp [decodeAll]
              · rw [List.take_succ_cons, List.take_succ_cons,
                  show decodeAll (r :: rs'.take k')
                    = (match decodeRecord r with
                       | .error e => .error e
                       | .ok d =>
                           match decodeAll (rs'.take k') with
                           | .error e => .error e
                           | .ok ds' => .ok (d :: ds')) from rfl,
                  hd, ih ds' hds k']

theorem openRaw_take {w : List Nat} {recs : List Record}
    (h : openRaw w = .ok recs) (n : Nat) :
    (∃ k, openRaw (w.take n) = .ok (recs.take k)) ∨
    openRaw (w.take n) = .error .invalidFormat ∨
    openRaw (w.take n) = .error .malformedRecord := by
  unfold openRaw at h
  by_cases hm : w.take MAGIC.length = MAGIC
  case neg => rw [if_neg hm] at h; exact absurd h (by simp)
  rw [if_pos hm] at h
  cases hp : parseAll (w.drop MAGIC.length) with
  | error e => rw [hp] at h; exact absurd h (by simp)
  | ok raws =>
      rw [hp] at h
      dsimp only at h
      unfold openRaw
      by_cases hn : MAGIC.length ≤ n
      · have hmm : (w.take n).take MAGIC.length = MAGIC := by
          rw [List.take_take, Nat.min_def, if_pos hn]
          exact hm
        rw [if_pos hmm, List.drop_take]
        rcases parseAll_take hp (n - MAGIC.length) with ⟨k, hk⟩ | herr
        · rw [hk]
          dsimp only
          rw [decodeAll_take raws recs h k]
          exact Or.inl ⟨k, rfl⟩
        · rw [herr]
          exact Or.inr (Or.inr rfl)
      · have hwlen : MAGIC.length ≤ w.length := by
          have hc := congrArg List.length hm
          rw [List.length_take] at hc
          omega
        have hne : (w.take n).take MAGIC.length ≠ MAGIC := by
          intro hc
          have hc' := congrArg List.length hc
          rw [List.length_take, List.length_take] at hc'
          omega
        rw [if_neg hne]
        exact Or.inr (Or.inl rfl)

/-- A record is good when it is not a chunk whose decompression or inner
parse fails. -/
def goodRec : Record → Bool
  | .chunkRec comp usize payload => isOkE (chunkMessages comp usize payload)
  | _ => true

theorem scanChunks_ok_all :
    ∀ {recs : List Record} {msgss : List (List Message)},
      scanChunks recs = .ok msgss → ∀ r ∈ recs, goodRec r = true := by
  intro recs
  induction recs with
  | nil => intro msgss _ r hr; exact absurd hr (by simp)
  | cons r0 rest ih =>
      intro msgss h r hr
      cases r0 with
      | chunkRec comp usize payload =>
          rw [show scanChunks (.chunkRec comp usize payload :: rest)
              = (match chunkMessages comp usize payload with
                 | .error e => .error e
                 | .ok msgs =>
                     match scanChunks rest with
                     | .error e => .error e
                     | .ok rests => .ok (msgs :: rests)) from rfl] at h
          cases hc : chunkMessages comp usize payload with
          | error e => rw [hc] at h; exact absurd h (by simp)
          | ok msgs =>
              rw [hc] at h
              dsimp only at h
              cases hs : scanChunks rest with
              | error e => rw [hs] at h; exact absurd h (by simp)
              | ok rests =>
                  rcases List.mem_cons.mp hr with rfl | hr'
                  · simp [goodRec, hc, isOkE]
                  · exact ih hs r hr'
      | conn id c =>
          rcases List.mem_cons.mp hr with rfl | hr'
          · rfl
          · exact ih h r hr'
      | msgRec m =>
          rcases List.mem_cons.mp hr with rfl | hr'
          · rfl
          · exact ih h r hr'
      | infoRec i =>
          rcases List.mem_cons.mp hr with rfl | hr'
          · rfl
          · exact ih h r hr'
      | indexRec =>
          rcases List.mem_cons.mp hr with rfl | hr'
          · rfl
          · exact ih h r hr'

theorem scanChunks_ok_of_all :
    ∀ {recs : List Record}, (∀ r ∈ recs, goodRec r = true) →
      isOkE (scanChunks recs) = true := by
  intro recs
  induction recs with
  | nil => intro _; rfl
  | cons r0 rest ih =>
      intro h
      have hrest := ih (fun r hr => h r (List.mem_cons_of_mem _ hr))
      cases r0 with
      | chunkRec comp usize payload =>
          have hg := h _ (List.mem_cons_self _ _)
          rw [goodRec] at hg
          rw [show scanChunks (.chunkRec comp usize payload :: rest)
              = (match chunkMessages comp usize payload with
                 | .error e => .error e
                 | .ok msgs =>
                     match scanChunks rest with
                     | .error e => .error e
                     | .ok rests => .ok (msgs :: rests)) from rfl]
          cases hc : chunkMessages comp usize payload with
          | error e => rw [hc] at hg; exact absurd hg (by simp [isOkE])
          | ok msgs =>
              dsimp only
              cases hs : scanChunks rest with
              | error e => rw [hs] at hrest; exact absurd hrest (by simp [isOkE])
              | ok rests => rfl
      | conn id c => exact hrest
      | msgRec m => exact hrest
      | infoRec i => exact hrest
      | indexRec => exact hrest

/-- Opening any truncation of a well-formed buffer either succeeds (the
documented fallback for unsafely-closed files) or fails with exactly
`invalidFormat` or `malformedRecord`. -/
theorem fromBytes_take (w : List Nat) (n : Nat)
    (hwf : wellFormedBytes w = true) :
    isOkE (fromBytes (w.take n)) = true ∨
    fromBytes (w.take n) = .error .invalidFormat ∨
    fromBytes (w.take n) = .error .malformedRecord := by
  unfold wellFormedBytes at hwf
  cases hopen : openRaw w with
  | error e => rw [hopen] at hwf; exact absurd hwf (by simp)
  | ok recs =>
      rw [hopen] at hwf
      dsimp only at hwf
      cases hscan : scanChunks recs with
      | error e => rw [hscan] at hwf; exact absurd hwf (by simp [isOkE])
      | ok msgss =>
          rcases openRaw_take hopen n with ⟨k, hk⟩ | herr | herr
          · refine Or.inl ?_
            unfold fromBytes
            rw [hk]
            dsimp only
            by_cases hinf : (infosOf (recs.take k)).isEmpty = true
            · rw [if_pos hinf]
              have hall : ∀ r ∈ recs.take k, goodRec r = true := fun r hr =>
                scanChunks_ok_all hscan r ((List.take_sublist _ _).subset hr)
              have hs := scanChunks_ok_of_all hall
              cases hsc : scanChunks (recs.take k) with
              | error e => rw [hsc] at hs; exact absurd hs (by simp [isOkE])
              | ok m2 =>
                  unfold buildScan
                  rw [hsc]
                  rfl
            · rw [if_neg hinf]
              rfl
          · exact Or.inr (Or.inl (by unfold fromBytes; rw [herr]))
          · exact Or.inr (Or.inr (by unfold fromBytes; rw [herr]))

theorem readRecsE_all_ok (conns : List (Nat × Connection)) (q : Query) :
    ∀ (recs : List Record), (∀ r ∈ recs, goodRec r = true) →
      ∀ x ∈ readRecsE conns q recs, isOkE x = true := by
  intro recs
  induction recs with
  | nil => intro _ x hx; exact absurd hx (by simp [readRecsE])
  | cons r0 rest ih =>
      intro hg x hx
      have hgrest : ∀ r ∈ rest, goodRec r = true := fun r hr =>
        hg r (List.mem_cons_of_mem _ hr)
      cases r0 with
      | chunkRec comp usize payload =>
          have hgc := hg _ (List.mem_cons_self _ _)
          rw [goodRec] at hgc
          cases hc : chunkMessages comp usize payload with
          | error e => rw [hc] at hgc; exact absurd hgc (by simp [isOkE])
          | ok msgs =>
              rw [show readRecsE conns q (.chunkRec comp usize payload :: rest)
                  = (match chunkMessages comp usize payload with
                     | .error e => [.error e]
                     | .ok msgs =>
                         (msgs.filterMap (viewOfConns conns q)).map .ok
                           ++ readRecsE conns q rest) from rfl, hc] at hx
              dsimp only at hx
              rcases List.mem_append.mp hx with hxl | hxr
              · rcases List.mem_map.mp hxl with ⟨v, _, hv⟩
                rw [← hv]
                rfl
              · exact ih hgrest x hxr
      | conn id c => exact ih hgrest x hx
      | msgRec m => exact ih hgrest x hx
      | infoRec i => exact ih hgrest x hx
      | indexRec => exact ih hgrest x hx

theorem readRecsE_split (conns : List (Nat × Connection)) (q : Query) :
    ∀ (recs₁ rest : List Record) (comp : String) (usize : Nat)
      (payload : List Nat) (e : Error),
      (∀ r ∈ recs₁, goodRec r = true) →
      chunkMessages comp usize payload = .error e →
      readRecsE conns q (recs₁ ++ .chunkRec comp usize payload :: rest)
        = readRecsE conns q recs₁ ++ [.error e] := by
  intro recs₁
  induction recs₁ with
  | nil =>
      intro rest comp usize payload e _ hbad
      rw [List.nil_append,
        show readRecsE conns q (.chunkRec comp usize payload :: rest)
          = (match chunkMessages comp usize payload with
             | .error e => [.error e]
             | .ok msgs =>
                 (msgs.filterMap (viewOfConns conns q)).map .ok
                   ++ readRecsE conns q rest) from rfl, hbad]
      rfl
  | cons r0 recs₁' ih =>
      intro rest comp usize payload e hg hbad
      have hgrest : ∀ r ∈ recs₁', goodRec r = true := fun r hr =>
        hg r (List.mem_cons_of_mem _ hr)
      have ih' := ih rest comp usize payload e hgrest hbad
      cases r0 with
      | chunkRec c' u' p' =>
          have hgc := hg _ (List.mem_cons_self _ _)
          rw [goodRec] at hgc
          cases hc : chunkMessages c' u' p' with
          | error e' => rw [hc] at hgc; exact absurd hgc (by simp [isOkE])
          | ok msgs =>
              rw [List.cons_append,
                show ∀ tail, readRecsE conns q (.chunkRec c' u' p' :: tail)
                  = (match chunkMessages c' u' p' with
                     | .error e => [.error e]
                     | .ok msgs =>
                         (msgs.filterMap (viewOfConns conns q)).map .ok
                           ++ readRecsE conns q tail) from fun _ => rfl,
                show readRecsE conns q (.chunkRec c' u' p' :: recs₁')
                  = (match chunkMessages c' u' p' with
                     | .error e => [.error e]
                     | .ok msgs =>
                         (msgs.filterMap (viewOfConns conns q)).map .ok
                           ++ readRecsE conns q recs₁') from rfl,
                hc]
              dsimp only
              rw [ih', List.append_assoc]
      | conn id c =>
          rw [List.cons_append,
            show ∀ tail, readRecsE conns q (.conn id c :: tail)
              = readRecsE conns q tail from fun _ => rfl,
            show readRecsE conns q (.conn id c :: recs₁')
              = readRecsE conns q recs₁' from rfl, ih']
      | msgRec m =>
          rw [List.cons_append,
            show ∀ tail, readRecsE conns q (.msgRec m :: tail)
              = readRecsE conns q tail from fun _ => rfl,
            show readRecsE conns q (.msgRec m :: recs₁')
              = readRecsE conns q recs₁' from rfl, ih']
      | infoRec i =>
          rw [List.cons_append,
            show ∀ tail, readRecsE conns q (.infoRec i :: tail)
              = readRecsE conns q tail from fun _ => rfl,
            show readRecsE conns q (.infoRec i :: recs₁')
              = readRecsE conns q recs₁' from rfl, ih']
      | indexRec =>
          rw [List.cons_append,
            show ∀ tail, readRecsE conns q (.indexRec :: tail)
              = readRecsE conns q tail from fun _ => rfl,
            show readRecsE conns q (.indexRec :: recs₁')
              = readRecsE conns q recs₁' from rfl, ih']

/-- C5 counterexample: a well-formed recording truncated exactly at a
record boundary (losing its trailing index) opens successfully through the
documented full-scan fallback, not with an `InvalidFormat` or
`MalformedRecord` error. -/
theorem truncated_open_ok_counterexample :
    wellFormedBytes sampleBytes = true ∧
    sampleTruncated = sampleBytes.take sampleTruncated.length ∧
    sampleTruncated.length < sampleBytes.length ∧
    isOkE (fromBytes sampleTruncated) = true :=
  ⟨by decide, by decide, by decide, by decide⟩

/-- C5 amended: construction never panics and is all-or-nothing — opening
any truncation of a well-formed recording either succeeds (a truncation at
a record boundary is tolerated via the full-scan fallback) or fails with
exactly `invalidFormat` or `malformedRecord`, before any message is
yielded; and iteration-time chunk errors surface at the failing element,
with every element already produced remaining a valid view. -/
theorem truncated_open_and_iteration_errors :
    (∀ (w : List Nat) (n : Nat), wellFormedBytes w = true →
      isOkE (fromBytes (w.take n)) = true ∨
      fromBytes (w.take n) = .error .invalidFormat ∨
      fromBytes (w.take n) = .error .malformedRecord) ∧
    (∀ (conns : List (Nat × Connection)) (q : Query)
        (recs₁ rest : List Record) (comp : String) (usize : Nat)
        (payload : List Nat) (e : Error),
      (∀ r ∈ recs₁, goodRec r = true) →
      chunkMessages comp usize payload = .error e →
      readRecsE conns q (recs₁ ++ .chunkRec comp usize payload :: rest)
        = readRecsE conns q recs₁ ++ [.error e] ∧
      ∀ x ∈ readRecsE conns q recs₁, isOkE x = true) :=
  ⟨fromBytes_take,
   fun conns q recs₁ rest comp usize payload e hg hbad =>
    ⟨readRecsE_split conns q recs₁ rest comp usize payload e hg hbad,
     readRecsE_all_ok conns q recs₁ hg⟩⟩

theorem truncated_open_and_iteration_errors_witness :
    (wellFormedBytes sampleBytes = true ∧
      (isOkE (fromBytes (sampleBytes.take sampleTruncated.length)) = true ∨
       fromBytes (sampleBytes.take sampleTruncated.length)
         = .error .invalidFormat ∨
       fromBytes (sampleBytes.take sampleTruncated.length)
         = .error .malformedRecord)) ∧
    (chunkMessages "gzip" 0 [] = .error (.unsupportedCompression "gzip") ∧
      readRecsE [] Query.all [.chunkRec "gzip" 0 []]
        = readRecsE [] Query.all []
          ++ [.error (.unsupportedCompression "gzip")]) :=
  ⟨⟨by decide,
    truncated_open_and_iteration_errors.1 sampleBytes sampleTruncated.length
      (by decide)⟩,
   ⟨rfl,
    (truncated_open_and_iteration_errors.2 [] Query.all [] [] "gzip" 0 []
      (.unsupportedCompression "gzip") (by simp) rfl).1⟩⟩

end ClaimFive

end Frost
